import Mathlib

/-!
# MarkovTextPredictor: a multi-order back-off character predictor

A shallow embedding of `src/MarkovTextPredictor.cpp`.

* `std::string` is a list of characters (`Str`).
* `std::unordered_map<std::string, std::vector<char>>` is an association list with at most one
  entry per key; only `find` and `operator[]` followed by `push_back` are used by the source, and
  neither depends on the iteration order of the map.
* The global Mersenne Twister `gen` is replaced by its raw outcome `rnd`, passed to each query; a
  query draws from it at most once.
* `std::async` / `fut.wait()` only decide *when* a table is built, never *what* is built; the
  build is the sequential body of the `buildModel` lambda.
-/

namespace Markov

/-- The `std::string` of the source. -/
abbrev Str := List Char

/-- The type of `Predictor::model_`: `std::unordered_map<std::string, std::vector<char>>`. -/
abbrev Model := List (Str × List Char)

/-- The call `model_.find(key)`: the stored vector, or `none` for `model_.end()`. -/
def find : Model → Str → Option (List Char)
  | [], _ => none
  | (k, v) :: rest, key => if k = key then some v else find rest key

/-- The statement `model_[key].push_back(c)`: `operator[]` creates an empty vector when the key is
absent, and `push_back` appends to the vector stored under the key. -/
def pushBack : Model → Str → Char → Model
  | [], key, c => [(key, [c])]
  | (k, v) :: rest, key, c =>
    if k = key then (k, v ++ [c]) :: rest else (k, v) :: pushBack rest key c

/-- The call `text.substr(pos, n)` for `pos ≤ text.size()`: at most `n` characters from `pos`. -/
def substr (text : Str) (pos n : Nat) : Str := (text.drop pos).take n

/-- The call `text.substr(pos)` for `pos ≤ text.size()`: everything from `pos` to the end. -/
def substrFrom (text : Str) (pos : Nat) : Str := text.drop pos

/-- A draw of `std::uniform_int_distribution<size_t> dist(a, b)` from the generator outcome `rnd`:
a value of the closed range `[a, b]`, every value of the range being reached by some outcome. -/
def uniform_int_distribution (a b : Nat) (rnd : Nat) : Nat := a + rnd % (b - a + 1)

/-- The largest value of an `int`. -/
def INT_MAX : Int := 2147483647

/-- The smallest value of an `int`. -/
def INT_MIN : Int := -2147483648

/-- The `int` that 32-bit two's complement arithmetic yields for the mathematical result `n`: `n`
itself when it lies in `INT_MIN .. INT_MAX`, and the value congruent to it modulo `2 ^ 32`
otherwise. The source language leaves the overflowing case of `hits_++` without a defined
result; this is what the machine computes. -/
def wrapInt (n : Int) : Int := (n + 2147483648) % 4294967296 - 2147483648

/-- The class `Predictor`. The source declares `size_` as `int`; the engine only ever constructs
predictors with `0 ≤ size`, so the order is a natural number here. The counter `hits_` is the
value of the source's `int hits_`. -/
structure Predictor where
  model_ : Model
  size_ : Nat
  hits_ : Int
deriving DecidableEq, Repr

/-- The loop of the `buildModel` lambda, entered with loop variable `i` and table `m`:
`for (size_t i = 0; i + size < text.size(); ++i) model_[text.substr(i, size)].push_back(text[i + size])`. -/
def buildModel (text : Str) (size : Nat) (i : Nat) (m : Model) : Model :=
  if h : i + size < text.length then
    let key := substr text i size
    let next_char := text[i + size]
    buildModel text size (i + 1) (pushBack m key next_char)
  else m
termination_by text.length - (i + size)

/-- The constructor `Predictor::Predictor(text, size)` (a structure and a function cannot share one
name, hence `construct`), with the build task run to completion. -/
def Predictor.construct (text : Str) (size : Nat) : Predictor :=
  { model_ := buildModel text size 0 [], size_ := size, hits_ := 0 }

/-- The method `Predictor::predictNextChar(context)` under generator outcome `rnd`: the optional
character returned and the predictor afterwards. The index drawn lies within the vector whenever
the vector is non-empty; reading an empty vector (undefined in the source, and excluded for built
tables by the table invariant) shows up as `none` after the hit was counted. The statement
`hits_++` is the `int` increment. -/
def Predictor.predictNextChar (p : Predictor) (context : Str) (rnd : Nat) :
    Option Char × Predictor :=
  if p.size_ > context.length then (none, p)
  else
    let key := substrFrom context (context.length - p.size_)
    match find p.model_ key with
    | none => (none, p)
    | some v =>
      let index := uniform_int_distribution 0 (v.length - 1) rnd
      (v[index]?, { p with hits_ := wrapInt (p.hits_ + 1) })

/-- The method `Predictor::getHits()`. -/
def Predictor.getHits (p : Predictor) : Int := p.hits_

/-- The class `MarkovTextPredictor`. The member `max_length_` is never written or read by the
source, so only `predictors_` is kept. -/
structure MarkovTextPredictor where
  predictors_ : List Predictor
deriving DecidableEq, Repr

/-- The constructor `MarkovTextPredictor::MarkovTextPredictor(text, max_length)`, named `construct`.
`predictors_.reserve(max_length + 1)` converts its argument to `size_t`: a negative argument
becomes a request above `max_size()` and throws `std::length_error`, and `max_length + 1` does not
fit an `int` when `max_length = INT_MAX`; both give `none`. Otherwise the loop
`for (int size = 0; size <= max_length; ++size)` emplaces one predictor per size. -/
def MarkovTextPredictor.construct (text : Str) (max_length : Int) :
    Option MarkovTextPredictor :=
  if max_length + 1 < 0 ∨ INT_MAX < max_length + 1 then none
  else some { predictors_ :=
    (List.range (max_length + 1).toNat).map (fun size => Predictor.construct text size) }

/-- The loop of `MarkovTextPredictor::predictNextChar`, entered with `n` predictors still to try
(the loop variable `size` is `n - 1`); leaving the loop returns the hardcoded character. -/
def MarkovTextPredictor.predictLoop (e : MarkovTextPredictor) (context : Str) (rnd : Nat) :
    (n : Nat) → n ≤ e.predictors_.length → Char × MarkovTextPredictor
  | 0, _ => ('a', e)
  | size + 1, h =>
    match (e.predictors_.get ⟨size, h⟩).predictNextChar context rnd with
    | (some c, p) => (c, { predictors_ := e.predictors_.set size p })
    | (none, _) => MarkovTextPredictor.predictLoop e context rnd size (Nat.le_of_succ_le h)

/-- The method `MarkovTextPredictor::predictNextChar(context)` under generator outcome `rnd`: the
character returned and the engine afterwards. -/
def MarkovTextPredictor.predictNextChar (e : MarkovTextPredictor) (context : Str) (rnd : Nat) :
    Char × MarkovTextPredictor :=
  MarkovTextPredictor.predictLoop e context rnd e.predictors_.length (Nat.le_refl _)

/-- A predictor holding the table built from `text` for order `size`; its hit counter is whatever
earlier queries left. -/
def Predictor.builtFrom (p : Predictor) (text : Str) (size : Nat) : Prop :=
  p.model_ = (Predictor.construct text size).model_ ∧ p.size_ = size

/-- Two engines that differ at most in their hit counters. -/
def MarkovTextPredictor.sameModels (e e₀ : MarkovTextPredictor) : Prop :=
  e.predictors_.map (fun p => (p.model_, p.size_)) =
    e₀.predictors_.map (fun p => (p.model_, p.size_))

/-- An engine built from `text` with `max_length`: the engine as the constructor returns it, or
as queries have left it since (queries move hit counters only). -/
def MarkovTextPredictor.builtFrom (e : MarkovTextPredictor) (text : Str) (max_length : Int) :
    Prop :=
  ∃ e₀, MarkovTextPredictor.construct text max_length = some e₀ ∧ e.sameModels e₀

/-- The specification's wording of a table entry: the characters `corpus[i + k]` over all start
indices `i` with `i + k < length(corpus)` and `corpus[i .. i+k) = s`, in increasing order of `i`,
duplicates retained. -/
def continuations (corpus : Str) (k : Nat) (s : Str) : List Char :=
  (List.range corpus.length).filterMap (fun i =>
    if i + k < corpus.length ∧ substr corpus i k = s then corpus[i + k]? else none)

/-- The part of `continuations` contributed by the start indices from `i` on. -/
def continuationsFrom (corpus : Str) (k : Nat) (s : Str) (i : Nat) : List Char :=
  (List.range' i (corpus.length - i)).filterMap (fun j =>
    if j + k < corpus.length ∧ substr corpus j k = s then corpus[j + k]? else none)

/-- Appending newly observed continuations to what a table already holds under a key. -/
def extend : Option (List Char) → List Char → Option (List Char)
  | o, [] => o
  | o, c :: cs => some (o.getD [] ++ c :: cs)

/-- The first component of `Predictor.predictNextChar` for the order-`size` model of `text`, with
the table lookup read off `continuations`. -/
def answer (text : Str) (size : Nat) (context : Str) (rnd : Nat) : Option Char :=
  if size > context.length then none
  else
    (extend none (continuations text size (substrFrom context (context.length - size)))).bind
      (fun v => v[uniform_int_distribution 0 (v.length - 1) rnd]?)

/-- The corpus of the specification's example scenario. -/
def abcCorpus : Str := "abcabcabc".toList

/-- The engine of the specification's example scenario: `abcCorpus` with `max_length = 2`. -/
def abcEngine : MarkovTextPredictor :=
  { predictors_ := [Predictor.construct abcCorpus 0, Predictor.construct abcCorpus 1,
      Predictor.construct abcCorpus 2] }

/-- The default argument of the constructor: `int max_length=15`. -/
def defaultMaxLength : Int := 15

/-- The constructor called without its second argument, as `main` does. -/
def MarkovTextPredictor.constructDefault (text : Str) : Option MarkovTextPredictor :=
  MarkovTextPredictor.construct text defaultMaxLength

/-- A sequence of calls of `Predictor::predictNextChar` on one model, each with its context and
generator outcome: the results in order and the model afterwards. -/
def Predictor.queries (p : Predictor) : List (Str × Nat) → List (Option Char) × Predictor
  | [] => ([], p)
  | (context, rnd) :: rest =>
    let r := p.predictNextChar context rnd
    let rs := Predictor.queries r.2 rest
    (r.1 :: rs.1, rs.2)

/-- A sequence of calls of `MarkovTextPredictor::predictNextChar` on one engine: the characters
returned in order and the engine afterwards. -/
def MarkovTextPredictor.queries (e : MarkovTextPredictor) :
    List (Str × Nat) → List Char × MarkovTextPredictor
  | [] => ([], e)
  | (context, rnd) :: rest =>
    let r := e.predictNextChar context rnd
    let rs := MarkovTextPredictor.queries r.2 rest
    (r.1 :: rs.1, rs.2)

/-- The sum of `getHits()` over all models of the engine, the figures `printStats` reports. -/
def MarkovTextPredictor.totalHits (e : MarkovTextPredictor) : Int :=
  (e.predictors_.map Predictor.getHits).sum

/-- The number of continuations a table records, summed over all its keys. -/
def totalContinuations (m : Model) : Nat := (m.map (fun entry => entry.2.length)).sum

/-- A model of order 0 of the corpus `"a"` whose counter has reached `INT_MAX`, as it stands after
`INT_MAX` answered queries. -/
def saturatedPredictor : Predictor :=
  { Predictor.construct ['a'] 0 with hits_ := INT_MAX }

/-- The engine built from the corpus `"a"` with `max_length = 0`, as constructed. -/
def singleEngine : MarkovTextPredictor :=
  { predictors_ := [Predictor.construct ['a'] 0] }

/-- The engine built from the corpus `"a"` with `max_length = 0` after `INT_MAX` queries. -/
def saturatedEngine : MarkovTextPredictor :=
  { predictors_ := [saturatedPredictor] }

/-! ## The table as a finite map -/

theorem find_pushBack (m : Model) (key s : Str) (c : Char) :
    find (pushBack m key c) s = extend (find m s) (if key = s then [c] else []) := by
  induction m with
  | nil => by_cases h : key = s <;> simp [pushBack, find, extend, h]
  | cons e rest ih =>
    obtain ⟨k, v⟩ := e
    by_cases hk : k = key
    · by_cases h : key = s
      · subst hk; subst h; simp [pushBack, find, extend]
      · have h2 : ¬ k = s := by rw [hk]; exact h
        simp [pushBack, find, extend, hk, h]
    · by_cases h : k = s
      · have h2 : ¬ key = s := by rw [← h]; exact fun e => hk e.symm
        subst h
        simp [pushBack, find, extend, hk, h2]
      · simp [pushBack, find, hk, h, ih]

theorem extend_extend (o : Option (List Char)) (l₁ l₂ : List Char) :
    extend (extend o l₁) l₂ = extend o (l₁ ++ l₂) := by
  cases l₁ with
  | nil => simp [extend]
  | cons a as =>
    cases l₂ with
    | nil => simp [extend]
    | cons b bs => simp [extend]

theorem continuationsFrom_of_not_lt (text : Str) (size : Nat) (s : Str) (i : Nat)
    (h : ¬ i + size < text.length) : continuationsFrom text size s i = [] := by
  unfold continuationsFrom
  rw [List.filterMap_eq_nil_iff]
  intro j hj
  have hj2 := (List.mem_range'_1.mp hj).1
  have : ¬ j + size < text.length := by omega
  simp [this]

theorem continuationsFrom_of_lt (text : Str) (size : Nat) (s : Str) (i : Nat)
    (h : i + size < text.length) :
    continuationsFrom text size s i =
      (if substr text i size = s then [text[i + size]] else []) ++
        continuationsFrom text size s (i + 1) := by
  unfold continuationsFrom
  have hlen : text.length - i = (text.length - (i + 1)) + 1 := by omega
  rw [hlen, List.range'_succ, List.filterMap_cons]
  by_cases hs : substr text i size = s
  · simp [h, hs, List.getElem?_eq_getElem]
  · simp [hs]

theorem find_buildModel (text : Str) (size : Nat) (s : Str) (i : Nat) (m : Model) :
    find (buildModel text size i m) s = extend (find m s) (continuationsFrom text size s i) := by
  induction i, m using buildModel.induct text size with
  | case1 i m h key next_char ih =>
    rw [buildModel, dif_pos h, ih, find_pushBack, extend_extend,
      continuationsFrom_of_lt text size s i h]
  | case2 i m h =>
    rw [buildModel, dif_neg h, continuationsFrom_of_not_lt text size s i h]
    rfl

theorem continuationsFrom_zero (text : Str) (size : Nat) (s : Str) :
    continuationsFrom text size s 0 = continuations text size s := by
  simp [continuationsFrom, continuations, List.range_eq_range']

theorem find_construct (text : Str) (size : Nat) (s : Str) :
    find (Predictor.construct text size).model_ s = extend none (continuations text size s) := by
  simp [Predictor.construct, find_buildModel, continuationsFrom_zero, find]

theorem mem_continuations (text : Str) (size : Nat) (s : Str) (c : Char) :
    c ∈ continuations text size s ↔
      ∃ i, i + size < text.length ∧ substr text i size = s ∧ text[i + size]? = some c := by
  unfold continuations
  rw [List.mem_filterMap]
  constructor
  · rintro ⟨i, _, hi⟩
    by_cases hc : i + size < text.length ∧ substr text i size = s
    · rw [if_pos hc] at hi
      exact ⟨i, hc.1, hc.2, hi⟩
    · rw [if_neg hc] at hi
      cases hi
  · rintro ⟨i, hlt, hs, hc⟩
    refine ⟨i, List.mem_range.mpr (by omega), ?_⟩
    rw [if_pos ⟨hlt, hs⟩]
    exact hc

theorem continuations_ne_nil_iff (text : Str) (size : Nat) (s : Str) :
    continuations text size s ≠ [] ↔ ∃ i, i + size < text.length ∧ substr text i size = s := by
  constructor
  · intro h
    obtain ⟨c, hc⟩ := List.exists_mem_of_ne_nil _ h
    obtain ⟨i, hlt, hs, _⟩ := (mem_continuations text size s c).mp hc
    exact ⟨i, hlt, hs⟩
  · rintro ⟨i, hlt, hs⟩
    have hmem : text[i + size] ∈ continuations text size s :=
      (mem_continuations text size s _).mpr ⟨i, hlt, hs, List.getElem?_eq_getElem hlt⟩
    exact List.ne_nil_of_mem hmem

theorem extend_none_eq_none_iff (l : List Char) : extend none l = none ↔ l = [] := by
  cases l <;> simp [extend]

theorem extend_none_eq_some_iff (l v : List Char) : extend none l = some v ↔ v = l ∧ l ≠ [] := by
  cases l with
  | nil => simp [extend]
  | cons a as =>
    simp only [extend, Option.getD_none, List.nil_append, Option.some.injEq, ne_eq,
      reduceCtorEq, not_false_eq_true, and_true]
    exact eq_comm

theorem find_construct_eq_none_iff (text : Str) (size : Nat) (s : Str) :
    find (Predictor.construct text size).model_ s = none ↔ continuations text size s = [] := by
  rw [find_construct, extend_none_eq_none_iff]

theorem find_construct_eq_some_iff (text : Str) (size : Nat) (s : Str) (v : List Char) :
    find (Predictor.construct text size).model_ s = some v ↔
      v = continuations text size s ∧ continuations text size s ≠ [] := by
  rw [find_construct, extend_none_eq_some_iff]

/-! ## The table invariant -/

theorem pushBack_invariant (m : Model) (key : Str) (c : Char) (size : Nat)
    (hkey : key.length = size) (hm : ∀ e ∈ m, e.1.length = size ∧ e.2 ≠ []) :
    ∀ e ∈ pushBack m key c, e.1.length = size ∧ e.2 ≠ [] := by
  induction m with
  | nil =>
    intro e he
    simp only [pushBack, List.mem_singleton] at he
    subst he
    exact ⟨hkey, by simp⟩
  | cons x rest ih =>
    obtain ⟨k, v⟩ := x
    have hrest : ∀ e ∈ rest, e.1.length = size ∧ e.2 ≠ [] :=
      fun e he => hm e (List.mem_cons_of_mem _ he)
    have hx := hm (k, v) (List.mem_cons_self _ _)
    intro e he
    unfold pushBack at he
    by_cases hk : k = key
    · rw [if_pos hk] at he
      rcases List.mem_cons.mp he with h | h
      · subst h
        exact ⟨hx.1, by simp⟩
      · exact hrest e h
    · rw [if_neg hk] at he
      rcases List.mem_cons.mp he with h | h
      · subst h
        exact hx
      · exact ih hrest e h

theorem length_substr (text : Str) (size i : Nat) (h : i + size < text.length) :
    (substr text i size).length = size := by
  unfold substr
  rw [List.length_take, List.length_drop]
  omega

theorem buildModel_invariant (text : Str) (size : Nat) (i : Nat) (m : Model)
    (hm : ∀ e ∈ m, e.1.length = size ∧ e.2 ≠ []) :
    ∀ e ∈ buildModel text size i m, e.1.length = size ∧ e.2 ≠ [] := by
  induction i, m using buildModel.induct text size with
  | case1 i m h key next_char ih =>
    rw [buildModel, dif_pos h]
    exact ih (pushBack_invariant m _ _ size (length_substr text size i h) hm)
  | case2 i m h =>
    rw [buildModel, dif_neg h]
    exact hm

theorem buildModel_zero (text : Str) (i : Nat) (m : Model) (v : List Char)
    (hm : m = [([], v)]) : buildModel text 0 i m = [([], v ++ text.drop i)] := by
  induction i, m using buildModel.induct text 0 generalizing v with
  | case1 i m h key next_char ih =>
    rw [buildModel, dif_pos h]
    have hstep : pushBack m (substr text i 0) text[i + 0] = [([], v ++ [text[i + 0]])] := by
      subst hm
      simp [pushBack, substr]
    rw [ih (v ++ [text[i + 0]]) hstep]
    have hi : i < text.length := by omega
    have hd : text.drop i = text[i] :: text.drop (i + 1) := List.drop_eq_getElem_cons hi
    rw [hd]
    simp
  | case2 i m h =>
    rw [buildModel, dif_neg h, hm]
    have : text.drop i = [] := List.drop_eq_nil_of_le (by omega)
    rw [this, List.append_nil]

theorem construct_ab_model :
    (Predictor.construct ['a', 'b'] 1).model_ = [(['a'], ['b'])] := by
  simp [Predictor.construct, buildModel, pushBack, substr]

/-! ## The back-off loop -/

theorem predictLoop_succ_some (e : MarkovTextPredictor) (context : Str) (rnd : Nat) (size : Nat)
    (h : size + 1 ≤ e.predictors_.length) (c : Char) (p : Predictor)
    (hp : (e.predictors_.get ⟨size, h⟩).predictNextChar context rnd = (some c, p)) :
    MarkovTextPredictor.predictLoop e context rnd (size + 1) h =
      (c, { predictors_ := e.predictors_.set size p }) := by
  simp only [MarkovTextPredictor.predictLoop]
  rw [hp]

theorem predictLoop_succ_none (e : MarkovTextPredictor) (context : Str) (rnd : Nat) (size : Nat)
    (h : size + 1 ≤ e.predictors_.length)
    (hp : ((e.predictors_.get ⟨size, h⟩).predictNextChar context rnd).1 = none) :
    MarkovTextPredictor.predictLoop e context rnd (size + 1) h =
      MarkovTextPredictor.predictLoop e context rnd size (Nat.le_of_succ_le h) := by
  simp only [MarkovTextPredictor.predictLoop]
  rcases hq : (e.predictors_.get ⟨size, h⟩).predictNextChar context rnd with ⟨o, p⟩
  rw [hq] at hp
  simp only at hp
  subst hp
  rfl

/-- What the loop does when entered with `n` predictors to try: either none of them answers and
the hardcoded character comes back with the engine untouched, or the predictor of the largest
index below `n` that answers supplies the character and is the only one replaced. -/
theorem predictLoop_spec (e : MarkovTextPredictor) (context : Str) (rnd : Nat) :
    ∀ (n : Nat) (h : n ≤ e.predictors_.length),
      ((∀ j q, j < n → e.predictors_[j]? = some q → (q.predictNextChar context rnd).1 = none) ∧
        MarkovTextPredictor.predictLoop e context rnd n h = ('a', e)) ∨
      (∃ k q c p, k < n ∧ e.predictors_[k]? = some q ∧
        q.predictNextChar context rnd = (some c, p) ∧
        (∀ j r, k < j → j < n → e.predictors_[j]? = some r →
          (r.predictNextChar context rnd).1 = none) ∧
        MarkovTextPredictor.predictLoop e context rnd n h =
          (c, { predictors_ := e.predictors_.set k p })) := by
  intro n
  induction n with
  | zero =>
    intro h
    left
    exact ⟨fun j q hj => absurd hj (Nat.not_lt_zero j), rfl⟩
  | succ size ih =>
    intro h
    have hget : e.predictors_[size]? = some (e.predictors_.get ⟨size, h⟩) := by
      rw [List.get_eq_getElem]; exact List.getElem?_eq_getElem h
    rcases hq : (e.predictors_.get ⟨size, h⟩).predictNextChar context rnd with ⟨o, p⟩
    cases o with
    | some c =>
      right
      refine ⟨size, _, c, p, Nat.lt_succ_self size, hget, hq, ?_,
        predictLoop_succ_some e context rnd size h c p hq⟩
      intro j r hlt hlt2
      omega
    | none =>
      have hnone : ((e.predictors_.get ⟨size, h⟩).predictNextChar context rnd).1 = none := by
        rw [hq]
      rw [predictLoop_succ_none e context rnd size h hnone]
      rcases ih (Nat.le_of_succ_le h) with ⟨hall, hres⟩ | ⟨k, q, c, p2, hk, hkq, hans, hall, hres⟩
      · left
        refine ⟨?_, hres⟩
        intro j q hj hjq
        rcases Nat.lt_succ_iff_lt_or_eq.mp hj with hlt | heq
        · exact hall j q hlt hjq
        · subst heq
          rw [hget] at hjq
          cases hjq
          exact hnone
      · right
        refine ⟨k, q, c, p2, Nat.lt_succ_of_lt hk, hkq, hans, ?_, hres⟩
        intro j r hkj hj hjr
        rcases Nat.lt_succ_iff_lt_or_eq.mp hj with hlt | heq
        · exact hall j r hkj hlt hjr
        · subst heq
          rw [hget] at hjr
          cases hjr
          exact hnone

/-! ## Engines built by the constructor -/

theorem predictNextChar_fst_congr (p q : Predictor) (hm : p.model_ = q.model_)
    (hs : p.size_ = q.size_) (context : Str) (rnd : Nat) :
    (p.predictNextChar context rnd).1 = (q.predictNextChar context rnd).1 := by
  unfold Predictor.predictNextChar
  rw [hm, hs]
  by_cases h : q.size_ > context.length
  · simp [h]
  · simp only [h, if_false]
    cases find q.model_ (substrFrom context (context.length - q.size_)) <;> rfl

theorem builtFrom_construct (text : Str) (max_length : Int) (e : MarkovTextPredictor)
    (h : MarkovTextPredictor.construct text max_length = some e) :
    e.builtFrom text max_length :=
  ⟨e, h, rfl⟩

theorem builtFrom_bounds (e : MarkovTextPredictor) (text : Str) (max_length : Int)
    (hb : e.builtFrom text max_length) :
    0 ≤ max_length + 1 ∧ e.predictors_.length = (max_length + 1).toNat := by
  obtain ⟨e₀, hc, hs⟩ := hb
  unfold MarkovTextPredictor.construct at hc
  split at hc
  · cases hc
  · rename_i hcond
    cases hc
    have hlen := congrArg List.length hs
    simp only [List.length_map, List.length_range] at hlen
    exact ⟨by omega, hlen⟩

theorem builtFrom_getElem? (e : MarkovTextPredictor) (text : Str) (max_length : Int)
    (hb : e.builtFrom text max_length) (k : Nat) (p : Predictor)
    (hp : e.predictors_[k]? = some p) : p.builtFrom text k ∧ (k : Int) ≤ max_length := by
  have hbd := builtFrom_bounds e text max_length hb
  obtain ⟨e₀, hc, hs⟩ := hb
  unfold MarkovTextPredictor.construct at hc
  split at hc
  · cases hc
  · cases hc
    have hk : k < e.predictors_.length := by
      rcases Nat.lt_or_ge k e.predictors_.length with h | h
      · exact h
      · rw [List.getElem?_eq_none h] at hp; cases hp
    have hk2 : k < (max_length + 1).toNat := by rw [← hbd.2]; exact hk
    have h1 := congrArg (fun l => l[k]?) hs
    simp only [List.getElem?_map, hp, Option.map_some', List.getElem?_range hk2] at h1
    simp only [Option.some.injEq, Prod.mk.injEq] at h1
    exact ⟨⟨h1.1, h1.2⟩, by omega⟩

theorem builtFrom_exists (e : MarkovTextPredictor) (text : Str) (max_length : Int)
    (hb : e.builtFrom text max_length) (k : Nat) (hk : (k : Int) ≤ max_length) :
    ∃ p, e.predictors_[k]? = some p := by
  have hbd := builtFrom_bounds e text max_length hb
  have hlt : k < e.predictors_.length := by rw [hbd.2]; omega
  exact ⟨e.predictors_[k], List.getElem?_eq_getElem hlt⟩

theorem builtFrom_mem (e : MarkovTextPredictor) (text : Str) (max_length : Int)
    (hb : e.builtFrom text max_length) (p : Predictor) (hp : p ∈ e.predictors_) :
    e.predictors_[p.size_]? = some p := by
  obtain ⟨k, hk⟩ := List.mem_iff_getElem?.mp hp
  have h := (builtFrom_getElem? e text max_length hb k p hk).1.2
  rw [h]
  exact hk

/-- The engine-level query in terms of the models: the hardcoded character when no model answers,
otherwise the answer of the model of the largest answering order, which is the only one whose
state is replaced. -/
theorem predictNextChar_spec (e : MarkovTextPredictor) (context : Str) (rnd : Nat) :
    ((∀ (j : Nat) (q : Predictor),
          e.predictors_[j]? = some q → (q.predictNextChar context rnd).1 = none) ∧
        e.predictNextChar context rnd = ('a', e)) ∨
      (∃ (k : Nat) (q : Predictor) (c : Char) (p : Predictor), e.predictors_[k]? = some q ∧
        q.predictNextChar context rnd = (some c, p) ∧
        (∀ (j : Nat) (r : Predictor), k < j → e.predictors_[j]? = some r →
          (r.predictNextChar context rnd).1 = none) ∧
        e.predictNextChar context rnd = (c, { predictors_ := e.predictors_.set k p })) := by
  have hlen : ∀ (j : Nat) (q : Predictor),
      e.predictors_[j]? = some q → j < e.predictors_.length := by
    intro j q hj
    rcases Nat.lt_or_ge j e.predictors_.length with h | h
    · exact h
    · rw [List.getElem?_eq_none h] at hj; cases hj
  rcases predictLoop_spec e context rnd e.predictors_.length (Nat.le_refl _) with
    ⟨hall, hres⟩ | ⟨k, q, c, p, _, hkq, hans, hall, hres⟩
  · left
    exact ⟨fun j q hj => hall j q (hlen j q hj) hj, hres⟩
  · right
    exact ⟨k, q, c, p, hkq, hans, fun j r hkj hjr => hall j r hkj (hlen j r hjr) hjr, hres⟩

theorem predictNextChar_fst_of_builtFrom (p : Predictor) (text : Str) (size : Nat)
    (hb : p.builtFrom text size) (context : Str) (rnd : Nat) :
    (p.predictNextChar context rnd).1 = answer text size context rnd := by
  obtain ⟨hm, hs⟩ := hb
  unfold Predictor.predictNextChar answer
  rw [hm, hs]
  by_cases h : size > context.length
  · simp [h]
  · simp only [h, if_false, find_construct]
    cases extend none (continuations text size (substrFrom context (context.length - size))) <;>
      rfl

theorem predictNextChar_fst_construct (text : Str) (size : Nat) (context : Str) (rnd : Nat) :
    ((Predictor.construct text size).predictNextChar context rnd).1 =
      answer text size context rnd :=
  predictNextChar_fst_of_builtFrom _ text size ⟨rfl, rfl⟩ context rnd

theorem uniform_int_distribution_lt (v : List Char) (hv : v ≠ []) (rnd : Nat) :
    uniform_int_distribution 0 (v.length - 1) rnd < v.length := by
  have hpos : 0 < v.length := List.length_pos.mpr hv
  unfold uniform_int_distribution
  have hlen : v.length - 1 - 0 + 1 = v.length := by omega
  rw [hlen, Nat.zero_add]
  exact Nat.mod_lt _ hpos

theorem answer_eq_some (text : Str) (size : Nat) (context : Str) (rnd : Nat) (c : Char)
    (h : answer text size context rnd = some c) :
    size ≤ context.length ∧
      c ∈ continuations text size (substrFrom context (context.length - size)) := by
  unfold answer at h
  by_cases hs : size > context.length
  · rw [if_pos hs] at h; cases h
  · rw [if_neg hs] at h
    refine ⟨by omega, ?_⟩
    rcases hx : extend none (continuations text size
      (substrFrom context (context.length - size))) with _ | v
    · rw [hx] at h; cases h
    · rw [hx] at h
      obtain ⟨hv, _⟩ := (extend_none_eq_some_iff _ v).mp hx
      rw [← hv]
      exact List.getElem?_mem h

theorem answer_of_ne_nil (text : Str) (size : Nat) (context : Str) (rnd : Nat)
    (hs : size ≤ context.length)
    (hne : continuations text size (substrFrom context (context.length - size)) ≠ []) :
    ∃ c, answer text size context rnd = some c := by
  unfold answer
  rw [if_neg (by omega)]
  have hx := (extend_none_eq_some_iff _ _).mpr ⟨rfl, hne⟩
  rw [hx]
  have hlt := uniform_int_distribution_lt _ hne rnd
  exact ⟨_, List.getElem?_eq_getElem hlt⟩

theorem mem_text_of_mem_continuations (text : Str) (size : Nat) (s : Str) (c : Char)
    (h : c ∈ continuations text size s) : c ∈ text := by
  obtain ⟨i, _, _, hc⟩ := (mem_continuations text size s c).mp h
  exact List.getElem?_mem hc

theorem continuations_zero_ne_nil (text : Str) (context : Str) (hne : text ≠ []) :
    continuations text 0 (substrFrom context (context.length - 0)) ≠ [] := by
  rw [continuations_ne_nil_iff]
  refine ⟨0, List.length_pos.mpr hne, ?_⟩
  simp [substr, substrFrom]

theorem wrapInt_of_range (n : Int) (hlo : INT_MIN ≤ n) (hhi : n ≤ INT_MAX) : wrapInt n = n := by
  unfold wrapInt
  unfold INT_MIN at hlo
  unfold INT_MAX at hhi
  omega

theorem wrapInt_succ_ne (n : Int) : wrapInt (n + 1) ≠ n := by
  unfold wrapInt
  omega

theorem wrapInt_succ_max : wrapInt (INT_MAX + 1) = INT_MIN := by
  unfold wrapInt INT_MAX INT_MIN
  omega

theorem hits_of_answer (q p : Predictor) (context : Str) (rnd : Nat) (c : Char)
    (h : q.predictNextChar context rnd = (some c, p)) :
    p = { q with hits_ := wrapInt (q.hits_ + 1) } := by
  unfold Predictor.predictNextChar at h
  by_cases hs : q.size_ > context.length
  · rw [if_pos hs] at h; cases h
  · rw [if_neg hs] at h
    simp only at h
    rcases hx : find q.model_ (substrFrom context (context.length - q.size_)) with _ | v
    · rw [hx] at h; cases h
    · rw [hx] at h
      simp only [Prod.mk.injEq] at h
      exact h.2.symm

theorem set_ne_of_answer (e : MarkovTextPredictor) (k : Nat) (q p : Predictor) (context : Str)
    (rnd : Nat) (c : Char) (hk : e.predictors_[k]? = some q)
    (h : q.predictNextChar context rnd = (some c, p)) :
    ({ predictors_ := e.predictors_.set k p } : MarkovTextPredictor) ≠ e := by
  intro heq
  have hlist : e.predictors_.set k p = e.predictors_ := congrArg (fun x => x.predictors_) heq
  have hlt : k < e.predictors_.length := by
    rcases Nat.lt_or_ge k e.predictors_.length with h | h
    · exact h
    · rw [List.getElem?_eq_none h] at hk; cases hk
  have h1 : (e.predictors_.set k p)[k]? = some p := by
    rw [List.getElem?_set_self hlt]
  rw [hlist, hk] at h1
  have hpq : q = p := Option.some.inj h1
  have hh := hits_of_answer q p context rnd c h
  rw [← hpq] at hh
  exact wrapInt_succ_ne q.hits_ (congrArg Predictor.hits_ hh).symm

/-- Suffix closure: when `s` is a key of the order-`j` table, its last `k` characters are a key of
the order-`k` table. -/
theorem continuations_suffix_ne_nil (text : Str) (j k : Nat) (hkj : k ≤ j) (s : Str)
    (hne : continuations text j s ≠ []) : continuations text k (s.drop (j - k)) ≠ [] := by
  obtain ⟨i, hlt, hs⟩ := (continuations_ne_nil_iff text j s).mp hne
  rw [continuations_ne_nil_iff]
  refine ⟨i + (j - k), by omega, ?_⟩
  rw [← hs]
  unfold substr
  rw [List.drop_take, List.drop_drop]
  have : j - (j - k) = k := by omega
  rw [this]

theorem substrFrom_drop (context : Str) (j k : Nat) (hkj : k ≤ j) (hj : j ≤ context.length) :
    (substrFrom context (context.length - j)).drop (j - k) =
      substrFrom context (context.length - k) := by
  unfold substrFrom
  rw [List.drop_drop]
  have : context.length - j + (j - k) = context.length - k := by omega
  rw [this]

/-- A query leaves a built engine built: it moves one hit counter at most. -/
theorem builtFrom_predictNextChar (e : MarkovTextPredictor) (text : Str) (max_length : Int)
    (hb : e.builtFrom text max_length) (context : Str) (rnd : Nat) :
    (e.predictNextChar context rnd).2.builtFrom text max_length := by
  rcases predictNextChar_spec e context rnd with
    ⟨_, hres⟩ | ⟨k, q, c, p, hkq, hq, _, hres⟩
  · rw [hres]; exact hb
  · rw [hres]
    obtain ⟨e₀, hc, hs⟩ := hb
    refine ⟨e₀, hc, ?_⟩
    unfold MarkovTextPredictor.sameModels at hs ⊢
    rw [← hs]
    simp only [List.map_set]
    apply List.ext_getElem?
    intro i
    rw [List.getElem?_set']
    by_cases hik : k = i
    · subst hik
      have hp := hits_of_answer q p context rnd c hq
      simp [List.getElem?_map, hkq, hp]
    · rw [if_neg hik]

theorem abcEngine_builtFrom : abcEngine.builtFrom abcCorpus 2 :=
  ⟨abcEngine, rfl, rfl⟩

/-- The corpus `"abc"`, in which every context has one continuation. -/
theorem abcOnce_builtFrom :
    MarkovTextPredictor.builtFrom
      { predictors_ := [Predictor.construct ['a', 'b', 'c'] 0,
          Predictor.construct ['a', 'b', 'c'] 1, Predictor.construct ['a', 'b', 'c'] 2] }
      ['a', 'b', 'c'] 2 :=
  ⟨_, rfl, rfl⟩

theorem getElem?_of_all_eq (v : List Char) (c : Char) (i : Nat) (hi : i < v.length)
    (hall : ∀ x ∈ v, x = c) : v[i]? = some c := by
  rw [List.getElem?_eq_getElem hi, hall _ (List.getElem_mem hi)]

theorem abcEngine_construct : MarkovTextPredictor.construct abcCorpus 2 = some abcEngine :=
  rfl

theorem abcEngine_order_two : abcEngine.predictors_[2]? = some (Predictor.construct abcCorpus 2) :=
  rfl

/-! ## Counting draws -/

theorem countP_range_getElem? (v : List Char) (ch : Char) :
    (List.range v.length).countP (fun r => decide (v[r]? = some ch)) = v.count ch := by
  induction v with
  | nil => rfl
  | cons a rest ih =>
    rw [List.length_cons, List.range_succ_eq_map, List.countP_cons, List.countP_map,
      List.count_cons]
    have hfun : ((fun r => decide ((a :: rest)[r]? = some ch)) ∘ Nat.succ) =
        (fun r => decide (rest[r]? = some ch)) := by
      funext r
      simp
    rw [hfun, ih]
    simp

theorem uniform_int_distribution_of_lt (v : List Char) (rnd : Nat) (h : rnd < v.length) :
    uniform_int_distribution 0 (v.length - 1) rnd = rnd := by
  unfold uniform_int_distribution
  have hlen : v.length - 1 - 0 + 1 = v.length := by omega
  rw [hlen, Nat.zero_add, Nat.mod_eq_of_lt h]

/-! ## State effect of queries -/

theorem predictNextChar_frame (p : Predictor) (context : Str) (rnd : Nat) :
    (p.predictNextChar context rnd).2.model_ = p.model_ ∧
      (p.predictNextChar context rnd).2.size_ = p.size_ := by
  unfold Predictor.predictNextChar
  by_cases hs : p.size_ > context.length
  · rw [if_pos hs]; exact ⟨rfl, rfl⟩
  · rw [if_neg hs]
    simp only
    cases find p.model_ (substrFrom context (context.length - p.size_)) <;> exact ⟨rfl, rfl⟩

theorem builtFrom_predictor_query (p : Predictor) (text : Str) (size : Nat)
    (hb : p.builtFrom text size) (context : Str) (rnd : Nat) :
    (p.predictNextChar context rnd).2.builtFrom text size := by
  obtain ⟨hm, hs⟩ := predictNextChar_frame p context rnd
  exact ⟨hm.trans hb.1, hs.trans hb.2⟩

/-- One query of a built model: either it answers and the hit counter is incremented as an
`int`, or it does not answer and the model stays as it is. -/
theorem predictNextChar_hits (p : Predictor) (text : Str) (size : Nat)
    (hb : p.builtFrom text size) (context : Str) (rnd : Nat) :
    ((∃ c, (p.predictNextChar context rnd).1 = some c) ∧
        (p.predictNextChar context rnd).2 = { p with hits_ := wrapInt (p.hits_ + 1) }) ∨
      p.predictNextChar context rnd = (none, p) := by
  unfold Predictor.predictNextChar
  by_cases hs : p.size_ > context.length
  · right; rw [if_pos hs]
  · rw [if_neg hs]
    simp only
    rcases hx : find p.model_ (substrFrom context (context.length - p.size_)) with _ | v
    · right; rfl
    · left
      simp only
      have hx2 := hx
      rw [hb.1, hb.2] at hx2
      have hne : v ≠ [] := by
        have h := (find_construct_eq_some_iff text size _ v).mp hx2
        rw [h.1]; exact h.2
      have hlt := uniform_int_distribution_lt v hne rnd
      exact ⟨⟨_, List.getElem?_eq_getElem hlt⟩, trivial⟩

/-- The number of queries of a sequence that returned a character. -/
theorem successes_cons (o : Option Char) (rs : List (Option Char)) :
    (((o :: rs).filter Option.isSome).length : Int) =
      (if o.isSome then 1 else 0) + ((rs.filter Option.isSome).length : Int) := by
  cases o with
  | none => simp
  | some c =>
    simp only [List.filter_cons, Option.isSome_some, if_true, List.length_cons]
    push_cast
    omega

/-- A sequence of queries on a built model whose counter is an `int` and does not reach past
`INT_MAX`: the counter grows by the number of queries that returned a character. -/
theorem queries_hits (text : Str) (size : Nat) (qs : List (Str × Nat)) :
    ∀ p : Predictor, p.builtFrom text size → INT_MIN ≤ p.getHits →
      p.getHits + ((p.queries qs).1.filter Option.isSome).length ≤ INT_MAX →
      (p.queries qs).2.builtFrom text size ∧
        (p.queries qs).2.getHits =
          p.getHits + ((p.queries qs).1.filter Option.isSome).length := by
  induction qs with
  | nil => intro p hb _ _; exact ⟨hb, by simp [Predictor.queries]⟩
  | cons q rest ih =>
    obtain ⟨context, rnd⟩ := q
    intro p hb hlo hhi
    have hb2 := builtFrom_predictor_query p text size hb context rnd
    simp only [Predictor.queries] at hhi ⊢
    rw [successes_cons] at hhi ⊢
    have hnn : (0 : Int) ≤ (((p.predictNextChar context rnd).2.queries rest).1.filter
        Option.isSome).length := Int.natCast_nonneg _
    rcases predictNextChar_hits p text size hb context rnd with ⟨⟨c, hc⟩, hst⟩ | hnone
    · rw [hc] at hhi ⊢
      simp only [Option.isSome_some, if_true] at hhi ⊢
      have hstep : (p.predictNextChar context rnd).2.getHits = p.getHits + 1 := by
        rw [hst]
        exact wrapInt_of_range _ (by unfold Predictor.getHits at hlo; unfold INT_MIN at *; omega)
          (by unfold Predictor.getHits at hhi; omega)
      obtain ⟨ihb, ihh⟩ := ih _ hb2 (by rw [hstep]; unfold INT_MIN at *; omega)
        (by rw [hstep]; omega)
      refine ⟨ihb, ?_⟩
      rw [ihh, hstep]
      omega
    · rw [hnone] at hhi ⊢
      simp only [Option.isSome_none, Bool.false_eq_true, if_false, Int.zero_add] at hhi ⊢
      exact ih p hb hlo hhi

/-! ## Answers and substrings of the corpus -/

theorem substr_succ (text : Str) (i k : Nat) (c : Char) (hc : text[i + k]? = some c) :
    substr text i (k + 1) = substr text i k ++ [c] := by
  unfold substr
  rw [List.take_succ, List.getElem?_drop, hc]
  rfl

/-- Every character a model of order `size` can answer for a context extends the last `size`
characters of the context to a substring of the corpus. -/
theorem answer_substring (text : Str) (size : Nat) (context : Str) (rnd : Nat) (ch : Char)
    (h : answer text size context rnd = some ch) :
    ∃ i, i + (size + 1) ≤ text.length ∧
      substr text i (size + 1) = substrFrom context (context.length - size) ++ [ch] := by
  obtain ⟨_, hmem⟩ := answer_eq_some text size context rnd ch h
  obtain ⟨i, hlt, hs, hc⟩ := (mem_continuations text size _ ch).mp hmem
  exact ⟨i, by omega, by rw [substr_succ text i size ch hc, hs]⟩

theorem answer_downward (text : Str) (k j : Nat) (hjk : j ≤ k) (context : Str) (rnd rnd₂ : Nat)
    (h : answer text k context rnd ≠ none) : answer text j context rnd₂ ≠ none := by
  rcases hx : answer text k context rnd with _ | c
  · exact absurd hx h
  · obtain ⟨hlen, hmem⟩ := answer_eq_some text k context rnd c hx
    have hne := continuations_suffix_ne_nil text k j hjk _ (List.ne_nil_of_mem hmem)
    rw [substrFrom_drop context k j hjk hlen] at hne
    obtain ⟨c2, hc2⟩ := answer_of_ne_nil text j context rnd₂ (by omega) hne
    rw [hc2]
    exact Option.some_ne_none c2

/-! ## Sizes and hit totals -/

theorem totalContinuations_pushBack (m : Model) (key : Str) (c : Char) :
    totalContinuations (pushBack m key c) = totalContinuations m + 1 := by
  induction m with
  | nil => simp [pushBack, totalContinuations]
  | cons x rest ih =>
    obtain ⟨k, v⟩ := x
    unfold totalContinuations at ih ⊢
    by_cases hk : k = key
    · simp only [pushBack, if_pos hk, List.map_cons, List.sum_cons, List.length_append,
        List.length_singleton]
      omega
    · simp only [pushBack, if_neg hk, List.map_cons, List.sum_cons, ih]
      omega

theorem totalContinuations_buildModel (text : Str) (size : Nat) (i : Nat) (m : Model) :
    totalContinuations (buildModel text size i m) =
      totalContinuations m + (text.length - size - i) := by
  induction i, m using buildModel.induct text size with
  | case1 i m h key next_char ih =>
    rw [buildModel, dif_pos h, ih, totalContinuations_pushBack]
    omega
  | case2 i m h =>
    rw [buildModel, dif_neg h]
    omega

theorem sum_map_set (l : List Predictor) (k : Nat) (q p : Predictor)
    (hk : l[k]? = some q) :
    ((l.set k p).map Predictor.getHits).sum + q.getHits =
      (l.map Predictor.getHits).sum + p.getHits := by
  induction l generalizing k with
  | nil => simp at hk
  | cons x rest ih =>
    cases k with
    | zero =>
      simp only [List.getElem?_cons_zero, Option.some.injEq] at hk
      subst hk
      simp only [List.set_cons_zero, List.map_cons, List.sum_cons]
      omega
    | succ n =>
      simp only [List.getElem?_cons_succ] at hk
      have h := ih n hk
      simp only [List.set_cons_succ, List.map_cons, List.sum_cons]
      omega

theorem getHits_le_sum (l : List Predictor) (hnn : ∀ p ∈ l, 0 ≤ p.getHits) :
    0 ≤ (l.map Predictor.getHits).sum ∧
      ∀ (k : Nat) (q : Predictor), l[k]? = some q →
        q.getHits ≤ (l.map Predictor.getHits).sum := by
  induction l with
  | nil =>
    refine ⟨by simp, ?_⟩
    intro k q hk
    simp at hk
  | cons x rest ih =>
    have hx := hnn x (List.mem_cons_self _ _)
    obtain ⟨hsum, hle⟩ := ih (fun p hp => hnn p (List.mem_cons_of_mem _ hp))
    simp only [List.map_cons, List.sum_cons]
    refine ⟨by omega, ?_⟩
    intro k q hk
    cases k with
    | zero =>
      simp only [List.getElem?_cons_zero, Option.some.injEq] at hk
      subst hk
      omega
    | succ n =>
      simp only [List.getElem?_cons_succ] at hk
      have := hle n q hk
      omega

/-- One query of an engine built from a non-empty corpus with `0 ≤ max_length`: the model of the
largest answering order is replaced by itself with its counter incremented as an `int`, nothing
else changes. -/
theorem predictNextChar_step (text : Str) (max_length : Int) (e : MarkovTextPredictor)
    (hb : e.builtFrom text max_length) (hne : text ≠ []) (hm : 0 ≤ max_length)
    (context : Str) (rnd : Nat) :
    ∃ (k : Nat) (q : Predictor), e.predictors_[k]? = some q ∧
      (q.predictNextChar context rnd).1 = some (e.predictNextChar context rnd).1 ∧
      (∀ (j : Nat) (r : Predictor), k < j → e.predictors_[j]? = some r →
        (r.predictNextChar context rnd).1 = none) ∧
      (e.predictNextChar context rnd).2.predictors_ =
        e.predictors_.set k { q with hits_ := wrapInt (q.hits_ + 1) } := by
  rcases predictNextChar_spec e context rnd with
    ⟨hall, _⟩ | ⟨k, q, c, p, hkq, hq, hlarger, hres⟩
  · exfalso
    obtain ⟨p0, hp0⟩ := builtFrom_exists e text max_length hb 0 (by simpa using hm)
    have hb0 := (builtFrom_getElem? e text max_length hb 0 p0 hp0).1
    have hnone := hall 0 p0 hp0
    rw [predictNextChar_fst_of_builtFrom p0 text 0 hb0] at hnone
    obtain ⟨c, hc⟩ := answer_of_ne_nil text 0 context rnd (Nat.zero_le _)
      (continuations_zero_ne_nil text context hne)
    rw [hc] at hnone
    cases hnone
  · have hq1 : (q.predictNextChar context rnd).1 = some c := by rw [hq]
    have hp := hits_of_answer q p context rnd c hq
    refine ⟨k, q, hkq, ?_, hlarger, ?_⟩
    · rw [hres]; exact hq1
    · rw [hres, hp]

/-- One query of such an engine whose counters are non-negative and sum to less than `INT_MAX`:
the sum goes up by one and the counters stay non-negative. -/
theorem totalHits_predictNextChar (text : Str) (max_length : Int) (e : MarkovTextPredictor)
    (hb : e.builtFrom text max_length) (hne : text ≠ []) (hm : 0 ≤ max_length)
    (context : Str) (rnd : Nat) (hnn : ∀ p ∈ e.predictors_, 0 ≤ p.getHits)
    (hlt : e.totalHits < INT_MAX) :
    (e.predictNextChar context rnd).2.totalHits = e.totalHits + 1 ∧
      ∀ p ∈ (e.predictNextChar context rnd).2.predictors_, 0 ≤ p.getHits := by
  obtain ⟨k, q, hkq, _, _, hset⟩ :=
    predictNextChar_step text max_length e hb hne hm context rnd
  have hq0 : 0 ≤ q.getHits := hnn q (List.mem_iff_getElem?.mpr ⟨k, hkq⟩)
  have hqle := (getHits_le_sum e.predictors_ hnn).2 k q hkq
  have hq0' : 0 ≤ q.hits_ := hq0
  have hqle' : q.hits_ ≤ (e.predictors_.map Predictor.getHits).sum := hqle
  have hlt' : (e.predictors_.map Predictor.getHits).sum < INT_MAX := hlt
  have hwrap : wrapInt (q.hits_ + 1) = q.hits_ + 1 := by
    apply wrapInt_of_range
    · unfold INT_MIN; omega
    · omega
  constructor
  · unfold MarkovTextPredictor.totalHits
    rw [hset, hwrap]
    have h := sum_map_set e.predictors_ k q { q with hits_ := q.hits_ + 1 } hkq
    simp only [Predictor.getHits] at h ⊢
    omega
  · intro p hp
    rw [hset, hwrap] at hp
    rcases List.mem_or_eq_of_mem_set hp with h | h
    · exact hnn p h
    · rw [h]
      show 0 ≤ q.hits_ + 1
      omega

theorem builtFrom_queries (text : Str) (max_length : Int) (qs : List (Str × Nat)) :
    ∀ e : MarkovTextPredictor, e.builtFrom text max_length →
      (e.queries qs).2.builtFrom text max_length := by
  induction qs with
  | nil => intro e hb; exact hb
  | cons q rest ih =>
    obtain ⟨context, rnd⟩ := q
    intro e hb
    exact ih _ (builtFrom_predictNextChar e text max_length hb context rnd)

theorem totalHits_queries (text : Str) (max_length : Int) (hne : text ≠ [])
    (hm : 0 ≤ max_length) (qs : List (Str × Nat)) :
    ∀ e : MarkovTextPredictor, e.builtFrom text max_length →
      (∀ p ∈ e.predictors_, 0 ≤ p.getHits) → e.totalHits + qs.length ≤ INT_MAX →
      (e.queries qs).2.totalHits = e.totalHits + qs.length ∧
        ∀ p ∈ (e.queries qs).2.predictors_, 0 ≤ p.getHits := by
  induction qs with
  | nil =>
    intro e _ hnn _
    exact ⟨by simp [MarkovTextPredictor.queries], hnn⟩
  | cons q rest ih =>
    obtain ⟨context, rnd⟩ := q
    intro e hb hnn hle
    simp only [List.length_cons, Nat.cast_add, Nat.cast_one] at hle
    have hb2 := builtFrom_predictNextChar e text max_length hb context rnd
    obtain ⟨hstep, hnn2⟩ := totalHits_predictNextChar text max_length e hb hne hm context rnd
      hnn (by omega)
    obtain ⟨ihs, ihn⟩ := ih _ hb2 hnn2 (by rw [hstep]; omega)
    refine ⟨?_, ihn⟩
    simp only [MarkovTextPredictor.queries, List.length_cons, Nat.cast_add, Nat.cast_one]
    rw [ihs, hstep]
    omega

theorem totalHits_construct (text : Str) (max_length : Int) (e : MarkovTextPredictor)
    (h : MarkovTextPredictor.construct text max_length = some e) :
    e.totalHits = 0 ∧ ∀ p ∈ e.predictors_, 0 ≤ p.getHits := by
  unfold MarkovTextPredictor.construct at h
  split at h
  · cases h
  · cases h
    constructor
    · unfold MarkovTextPredictor.totalHits
      simp only [List.map_map]
      apply List.sum_eq_zero
      intro x hx
      obtain ⟨a, _, ha⟩ := List.mem_map.mp hx
      rw [← ha]
      rfl
    · intro p hp
      obtain ⟨a, _, ha⟩ := List.mem_map.mp hp
      rw [← ha]
      exact Int.le_refl 0

/-! ## Long runs of queries -/

theorem predictor_eq_of_fields (p q : Predictor) (hm : p.model_ = q.model_)
    (hs : p.size_ = q.size_) (hh : p.hits_ = q.hits_) : p = q := by
  cases p
  cases q
  simp only at hm hs hh
  subst hm
  subst hs
  subst hh
  rfl

/-- Repeating a query that the order-`size` model answers: every one of the `n` results is a
character. -/
theorem successes_replicate (text : Str) (size : Nat) (context : Str) (rnd : Nat) (c : Char)
    (hans : answer text size context rnd = some c) (n : Nat) :
    ∀ p : Predictor, p.builtFrom text size →
      (((p.queries (List.replicate n (context, rnd))).1.filter Option.isSome).length : Int) =
        n := by
  induction n with
  | zero => intro p _; rfl
  | succ m ih =>
    intro p hb
    have hb2 := builtFrom_predictor_query p text size hb context rnd
    rw [List.replicate_succ]
    simp only [Predictor.queries]
    rw [successes_cons, ih _ hb2, predictNextChar_fst_of_builtFrom p text size hb, hans]
    simp only [Option.isSome_some, if_true]
    push_cast
    omega

theorem predictor_queries_append (l₁ l₂ : List (Str × Nat)) :
    ∀ p : Predictor, (p.queries (l₁ ++ l₂)).2 = ((p.queries l₁).2.queries l₂).2 := by
  induction l₁ with
  | nil => intro p; rfl
  | cons q rest ih =>
    obtain ⟨context, rnd⟩ := q
    intro p
    simp only [List.cons_append, Predictor.queries]
    exact ih _

theorem engine_queries_append (l₁ l₂ : List (Str × Nat)) :
    ∀ e : MarkovTextPredictor, (e.queries (l₁ ++ l₂)).2 = ((e.queries l₁).2.queries l₂).2 := by
  induction l₁ with
  | nil => intro e; rfl
  | cons q rest ih =>
    obtain ⟨context, rnd⟩ := q
    intro e
    simp only [List.cons_append, MarkovTextPredictor.queries]
    exact ih _

theorem answer_single : answer ['a'] 0 [] 0 = some 'a' := by
  decide

theorem saturatedPredictor_builtFrom : saturatedPredictor.builtFrom ['a'] 0 :=
  ⟨rfl, rfl⟩

/-- After `n = INT_MAX` answered queries the newly constructed order-0 model of `"a"` is
`saturatedPredictor`. -/
theorem saturatedPredictor_reached_of (n : Nat) (hn : (n : Int) = INT_MAX) :
    ((Predictor.construct ['a'] 0).queries (List.replicate n ([], 0))).2 =
      saturatedPredictor := by
  have hb : (Predictor.construct ['a'] 0).builtFrom ['a'] 0 := ⟨rfl, rfl⟩
  have hsucc := successes_replicate ['a'] 0 [] 0 'a' answer_single n
    (Predictor.construct ['a'] 0) hb
  have hzero : (Predictor.construct ['a'] 0).getHits = 0 := rfl
  obtain ⟨hb2, hhits⟩ := queries_hits ['a'] 0 (List.replicate n ([], 0))
    (Predictor.construct ['a'] 0) hb (by rw [hzero]; unfold INT_MIN; omega)
    (by rw [hzero, hsucc]; omega)
  rw [hzero, hsucc] at hhits
  apply predictor_eq_of_fields
  · exact hb2.1
  · exact hb2.2
  · rw [show saturatedPredictor.hits_ = INT_MAX from rfl]
    unfold Predictor.getHits at hhits
    rw [hhits]
    omega

/-- The state `saturatedPredictor` is reached: it is the newly constructed model after
`2147483647` answered queries. -/
theorem saturatedPredictor_reached :
    ((Predictor.construct ['a'] 0).queries (List.replicate 2147483647 ([], 0))).2 =
      saturatedPredictor :=
  saturatedPredictor_reached_of 2147483647 (by unfold INT_MAX; norm_num)

theorem saturatedPredictor_step :
    saturatedPredictor.predictNextChar [] 0 =
      (some 'a', { saturatedPredictor with hits_ := INT_MIN }) := by
  rcases predictNextChar_hits saturatedPredictor ['a'] 0 saturatedPredictor_builtFrom [] 0 with
    ⟨_, hst⟩ | hnone
  · have h1 : (saturatedPredictor.predictNextChar [] 0).1 = some 'a' := by
      rw [predictNextChar_fst_of_builtFrom _ ['a'] 0 saturatedPredictor_builtFrom]
      exact answer_single
    have h2 : (saturatedPredictor.predictNextChar [] 0).2 =
        { saturatedPredictor with hits_ := INT_MIN } := by
      rw [hst]
      apply predictor_eq_of_fields
      · rfl
      · rfl
      · exact wrapInt_succ_max
    exact Prod.ext h1 h2
  · have h1 : (saturatedPredictor.predictNextChar [] 0).1 = some 'a' := by
      rw [predictNextChar_fst_of_builtFrom _ ['a'] 0 saturatedPredictor_builtFrom]
      exact answer_single
    rw [hnone] at h1
    cases h1

theorem singleEngine_construct :
    MarkovTextPredictor.construct ['a'] 0 = some singleEngine :=
  rfl

theorem saturatedEngine_builtFrom : saturatedEngine.builtFrom ['a'] 0 :=
  ⟨singleEngine, rfl, rfl⟩

/-- After `n = INT_MAX` queries the newly constructed engine of `"a"` is `saturatedEngine`. -/
theorem saturatedEngine_reached_of (n : Nat) (hn : (n : Int) = INT_MAX) :
    (singleEngine.queries (List.replicate n ([], 0))).2 = saturatedEngine := by
  have hb0 : singleEngine.builtFrom ['a'] 0 :=
    builtFrom_construct ['a'] 0 singleEngine singleEngine_construct
  obtain ⟨hz, hnn⟩ := totalHits_construct ['a'] 0 singleEngine singleEngine_construct
  have hb := builtFrom_queries ['a'] 0 (List.replicate n ([], 0)) singleEngine hb0
  obtain ⟨htot, _⟩ := totalHits_queries ['a'] 0 (by decide) (by decide)
    (List.replicate n ([], 0)) singleEngine hb0 hnn
    (by rw [hz, List.length_replicate]; omega)
  rw [hz, List.length_replicate] at htot
  generalize (singleEngine.queries (List.replicate n ([], 0))).2 = e at hb htot
  have hlen := (builtFrom_bounds e ['a'] 0 hb).2
  obtain ⟨ps⟩ := e
  simp only at hlen
  match ps, hlen with
  | [q], _ =>
    have hq := (builtFrom_getElem? { predictors_ := [q] } ['a'] 0 hb 0 q rfl).1
    have hh : q.hits_ = INT_MAX := by
      simp only [MarkovTextPredictor.totalHits, List.map_cons, List.map_nil, List.sum_cons,
        List.sum_nil, Predictor.getHits] at htot
      omega
    have : q = saturatedPredictor :=
      predictor_eq_of_fields q saturatedPredictor hq.1 hq.2 hh
    rw [this]
    rfl

theorem saturatedEngine_step :
    saturatedEngine.predictNextChar [] 0 =
      ('a', { predictors_ := [{ saturatedPredictor with hits_ := INT_MIN }] }) :=
  predictLoop_succ_some saturatedEngine [] 0 0 (Nat.le_refl 1) 'a'
    { saturatedPredictor with hits_ := INT_MIN } saturatedPredictor_step

/-- One query more than `INT_MAX` on the newly constructed engine of `"a"`: the hit total is
`INT_MIN`. -/
theorem singleEngine_overflow_of (m : Nat) (hm : (m : Int) = INT_MAX + 1) :
    (singleEngine.queries (List.replicate m ([], 0))).2.totalHits = INT_MIN := by
  obtain ⟨n, rfl⟩ : ∃ n, m = n + 1 := ⟨m - 1, by unfold INT_MAX at hm; omega⟩
  have hn : (n : Int) = INT_MAX := by push_cast at hm; omega
  rw [List.replicate_succ', engine_queries_append, saturatedEngine_reached_of n hn]
  simp only [MarkovTextPredictor.queries]
  rw [saturatedEngine_step]
  rfl

/-! ## The claims -/

/-- C1 (build): the table built for `text` and order `size` has an entry under `s` exactly when
`s = text[i .. i+size)` for some start index `i` with `i + size < length(text)`, and the stored
sequence is then the list of the characters `text[i + size]` over all such `i`, in increasing
order of `i`, duplicates retained. -/
theorem build_table_characterisation (text : Str) (size : Nat) (s : Str) :
    ((∃ v, find (Predictor.construct text size).model_ s = some v) ↔
        ∃ i, i + size < text.length ∧ substr text i size = s) ∧
      (∀ v, find (Predictor.construct text size).model_ s = some v →
        v = continuations text size s) := by
  constructor
  · rw [← continuations_ne_nil_iff]
    constructor
    · rintro ⟨v, hv⟩
      exact ((find_construct_eq_some_iff text size s v).mp hv).2
    · intro h
      exact ⟨_, (find_construct_eq_some_iff text size s _).mpr ⟨rfl, h⟩⟩
  · intro v hv
    exact ((find_construct_eq_some_iff text size s v).mp hv).1

/-- C2 (back-off): in an engine built from `text` with `max_length`, when the model `p` answers
`c` for the context and every model of a larger order answers nothing, the engine returns `c`:
the answer is that of the largest answering order, whatever the smaller orders hold. -/
theorem backoff_largest_order (text : Str) (max_length : Int) (e : MarkovTextPredictor)
    (hb : e.builtFrom text max_length) (context : Str) (rnd : Nat) (p : Predictor) (c : Char)
    (hp : p ∈ e.predictors_) (hans : (p.predictNextChar context rnd).1 = some c)
    (hmax : ∀ q ∈ e.predictors_, p.size_ < q.size_ → (q.predictNextChar context rnd).1 = none) :
    (e.predictNextChar context rnd).1 = c := by
  have hpi := builtFrom_mem e text max_length hb p hp
  rcases predictNextChar_spec e context rnd with
    ⟨hall, _⟩ | ⟨k, q, c2, p2, hkq, hq, hall, hres⟩
  · rw [hall _ p hpi] at hans
    cases hans
  · have hqsize := (builtFrom_getElem? e text max_length hb k q hkq).1.2
    have hq1 : (q.predictNextChar context rnd).1 = some c2 := by rw [hq]
    rw [hres]
    rcases Nat.lt_trichotomy k p.size_ with hlt | heq | hgt
    · rw [hall _ p hlt hpi] at hans
      cases hans
    · rw [heq, hpi] at hkq
      cases hkq
      rw [hq1] at hans
      exact Option.some.inj hans
    · have hqmem : q ∈ e.predictors_ := List.mem_iff_getElem?.mpr ⟨k, hkq⟩
      rw [hmax q hqmem (by rw [hqsize]; exact hgt)] at hq1
      cases hq1

/-- Witness for C2: in the example engine the order-2 model has no entry for `"xb"`, the order-1
model answers `'c'` for `"b"`, and the engine returns `'c'`. -/
theorem backoff_largest_order_witness :
    abcEngine.builtFrom abcCorpus 2 ∧
      Predictor.construct abcCorpus 1 ∈ abcEngine.predictors_ ∧
      ((Predictor.construct abcCorpus 1).predictNextChar ['x', 'b'] 0).1 = some 'c' ∧
      (abcEngine.predictNextChar ['x', 'b'] 0).1 = 'c' :=
  have hans : ((Predictor.construct abcCorpus 1).predictNextChar ['x', 'b'] 0).1 = some 'c' := by
    rw [predictNextChar_fst_construct]; decide
  ⟨abcEngine_builtFrom, by simp [abcEngine], hans,
    backoff_largest_order abcCorpus 2 abcEngine abcEngine_builtFrom ['x', 'b'] 0
      (Predictor.construct abcCorpus 1) 'c' (by simp [abcEngine]) hans (by
        intro q hq hlt
        simp only [abcEngine, List.mem_cons, List.mem_singleton, List.not_mem_nil,
          or_false] at hq
        rcases hq with h | h | h
        · subst h; exact absurd hlt (by decide)
        · subst h; exact absurd hlt (by decide)
        · subst h; rw [predictNextChar_fst_construct]; decide)⟩

/-- C3: an engine built from a non-empty corpus with `0 ≤ max_length` never takes the hardcoded
fallback (the engine returned differs from the engine queried, which the fallback leaves as it
is): some model of the engine answers the character returned, and that character occurs in the
corpus. -/
theorem nonempty_corpus_model_answers (text : Str) (max_length : Int) (e : MarkovTextPredictor)
    (hb : e.builtFrom text max_length) (hne : text ≠ []) (hm : 0 ≤ max_length) (context : Str)
    (rnd : Nat) :
    (∃ p ∈ e.predictors_,
        (p.predictNextChar context rnd).1 = some (e.predictNextChar context rnd).1) ∧
      (e.predictNextChar context rnd).2 ≠ e ∧
      (e.predictNextChar context rnd).1 ∈ text := by
  rcases predictNextChar_spec e context rnd with
    ⟨hall, _⟩ | ⟨k, q, c, p, hkq, hq, _, hres⟩
  · exfalso
    obtain ⟨p0, hp0⟩ := builtFrom_exists e text max_length hb 0 (by simpa using hm)
    have hb0 := (builtFrom_getElem? e text max_length hb 0 p0 hp0).1
    have hnone := hall 0 p0 hp0
    rw [predictNextChar_fst_of_builtFrom p0 text 0 hb0] at hnone
    obtain ⟨c, hc⟩ := answer_of_ne_nil text 0 context rnd (Nat.zero_le _)
      (continuations_zero_ne_nil text context hne)
    rw [hc] at hnone
    cases hnone
  · have hbk := (builtFrom_getElem? e text max_length hb k q hkq).1
    have hq1 : (q.predictNextChar context rnd).1 = some c := by rw [hq]
    rw [hres]
    refine ⟨⟨q, List.mem_iff_getElem?.mpr ⟨k, hkq⟩, hq1⟩,
      set_ne_of_answer e k q p context rnd c hkq hq, ?_⟩
    rw [predictNextChar_fst_of_builtFrom q text k hbk] at hq1
    exact mem_text_of_mem_continuations text k _ c (answer_eq_some text k context rnd c hq1).2

/-- Witness for C3: the example engine queried with the context `"zz"`, which no model of
order 1 or 2 has seen. -/
theorem nonempty_corpus_model_answers_witness :
    abcEngine.builtFrom abcCorpus 2 ∧ abcCorpus ≠ [] ∧ (0 : Int) ≤ 2 ∧
      ((∃ p ∈ abcEngine.predictors_,
          (p.predictNextChar ['z', 'z'] 4).1 = some (abcEngine.predictNextChar ['z', 'z'] 4).1) ∧
        (abcEngine.predictNextChar ['z', 'z'] 4).2 ≠ abcEngine ∧
        (abcEngine.predictNextChar ['z', 'z'] 4).1 ∈ abcCorpus) :=
  ⟨abcEngine_builtFrom, by decide, by decide,
    nonempty_corpus_model_answers abcCorpus 2 abcEngine abcEngine_builtFrom (by decide)
      (by decide) ['z', 'z'] 4⟩

/-- C4 (back-off correctness): when the last `k` characters of the context are a key of the
order-`k` table with the single recorded continuation `c`, and the last `k + 1` characters are
not a key of the order-`(k + 1)` table (or `k = max_length`, or the context has length `k`), every
model of an order above `k` answers nothing and the engine returns `c`, whatever the random
source yields. -/
theorem backoff_unique_continuation (text : Str) (max_length : Int) (e : MarkovTextPredictor)
    (hb : e.builtFrom text max_length) (context : Str) (rnd : Nat) (k : Nat) (c : Char)
    (hk : (k : Int) ≤ max_length) (hlen : k ≤ context.length)
    (hone : find (Predictor.construct text k).model_
      (substrFrom context (context.length - k)) = some [c])
    (hmiss : (k : Int) = max_length ∨ context.length = k ∨
      find (Predictor.construct text (k + 1)).model_
        (substrFrom context (context.length - (k + 1))) = none) :
    (∀ q ∈ e.predictors_, k < q.size_ → (q.predictNextChar context rnd).1 = none) ∧
      (e.predictNextChar context rnd).1 = c := by
  have hfall : ∀ (j : Nat) (q : Predictor), k < j → e.predictors_[j]? = some q →
      (q.predictNextChar context rnd).1 = none := by
    intro j q hkj hjq
    obtain ⟨hbq, hjm⟩ := builtFrom_getElem? e text max_length hb j q hjq
    rw [predictNextChar_fst_of_builtFrom q text j hbq]
    rcases hx : answer text j context rnd with _ | c2
    · rfl
    · exfalso
      obtain ⟨hjlen, hmem⟩ := answer_eq_some text j context rnd c2 hx
      rcases hmiss with h | h | h
      · omega
      · omega
      · have hnil := (find_construct_eq_none_iff text (k + 1) _).mp h
        have hne := continuations_suffix_ne_nil text j (k + 1) hkj _ (List.ne_nil_of_mem hmem)
        rw [substrFrom_drop context j (k + 1) hkj hjlen] at hne
        exact hne hnil
  obtain ⟨pk, hpk⟩ := builtFrom_exists e text max_length hb k hk
  have hbk := (builtFrom_getElem? e text max_length hb k pk hpk).1
  have hansk : (pk.predictNextChar context rnd).1 = some c := by
    rw [predictNextChar_fst_of_builtFrom pk text k hbk]
    unfold answer
    rw [if_neg (by omega), ← find_construct, hone]
    simp [uniform_int_distribution, Nat.mod_one]
  constructor
  · intro q hq hlt
    exact hfall q.size_ q hlt (builtFrom_mem e text max_length hb q hq)
  · rcases predictNextChar_spec e context rnd with
      ⟨hall, _⟩ | ⟨k2, q, c2, p2, hkq, hq, hall, hres⟩
    · rw [hall k pk hpk] at hansk
      cases hansk
    · have hq1 : (q.predictNextChar context rnd).1 = some c2 := by rw [hq]
      rw [hres]
      rcases Nat.lt_trichotomy k2 k with hlt | heq | hgt
      · rw [hall k pk hlt hpk] at hansk
        cases hansk
      · rw [heq, hpk] at hkq
        cases hkq
        rw [hq1] at hansk
        exact Option.some.inj hansk
      · rw [hfall k2 q hgt hkq] at hq1
        cases hq1

/-- Witness for C4: corpus `"abc"`, `max_length = 2`, context `"xb"`: the order-2 table has no
key `"xb"`, the order-1 table holds `"b" ↦ ['c']`, and the engine returns `'c'`. -/
theorem backoff_unique_continuation_witness :
    ((1 : Nat) : Int) ≤ 2 ∧ 1 ≤ ['x', 'b'].length ∧
      find (Predictor.construct ['a', 'b', 'c'] 1).model_
        (substrFrom ['x', 'b'] (['x', 'b'].length - 1)) = some ['c'] ∧
      find (Predictor.construct ['a', 'b', 'c'] (1 + 1)).model_
        (substrFrom ['x', 'b'] (['x', 'b'].length - (1 + 1))) = none ∧
      (MarkovTextPredictor.predictNextChar
        { predictors_ := [Predictor.construct ['a', 'b', 'c'] 0,
            Predictor.construct ['a', 'b', 'c'] 1, Predictor.construct ['a', 'b', 'c'] 2] }
        ['x', 'b'] 7).1 = 'c' :=
  have hone : find (Predictor.construct ['a', 'b', 'c'] 1).model_
      (substrFrom ['x', 'b'] (['x', 'b'].length - 1)) = some ['c'] := by
    rw [find_construct]; decide
  have hmiss : find (Predictor.construct ['a', 'b', 'c'] (1 + 1)).model_
      (substrFrom ['x', 'b'] (['x', 'b'].length - (1 + 1))) = none := by
    rw [find_construct]; decide
  ⟨by decide, by decide, hone, hmiss,
    (backoff_unique_continuation ['a', 'b', 'c'] 2 _ abcOnce_builtFrom ['x', 'b'] 7 1 'c'
      (by decide) (by decide) hone (Or.inr (Or.inr hmiss))).2⟩

/-- C5: a model of order `k` returns "no prediction" (and stays as it is) for every context
shorter than `k`. -/
theorem short_context_no_prediction (text : Str) (k : Nat) (p : Predictor)
    (hb : p.builtFrom text k) (c : Str) (rnd : Nat) (hlen : c.length < k) :
    p.predictNextChar c rnd = (none, p) := by
  unfold Predictor.predictNextChar
  rw [hb.2, if_pos hlen]

/-- Witness for C5: the order-2 model of the example corpus, queried with `"a"`. -/
theorem short_context_no_prediction_witness :
    (Predictor.construct abcCorpus 2).builtFrom abcCorpus 2 ∧ ['a'].length < 2 ∧
      (Predictor.construct abcCorpus 2).predictNextChar ['a'] 3 =
        (none, Predictor.construct abcCorpus 2) :=
  ⟨⟨rfl, rfl⟩, by decide,
    short_context_no_prediction abcCorpus 2 (Predictor.construct abcCorpus 2) ⟨rfl, rfl⟩ ['a'] 3
      (by decide)⟩

/-- C6: an order-`size` model queried with a context of length at least `size` looks up the last
`size` characters of the context; it returns "no prediction" exactly when that key is absent, and
otherwise the element of the stored sequence at the drawn index, which is one of the recorded
continuations of the key. -/
theorem lookup_trailing_key (text : Str) (size : Nat) (p : Predictor)
    (hb : p.builtFrom text size) (context : Str) (rnd : Nat) (hlen : size ≤ context.length) :
    ((p.predictNextChar context rnd).1 = none ↔
        find p.model_ (substrFrom context (context.length - size)) = none) ∧
      (∀ v, find p.model_ (substrFrom context (context.length - size)) = some v →
        (p.predictNextChar context rnd).1 = v[uniform_int_distribution 0 (v.length - 1) rnd]? ∧
        ∃ c, (p.predictNextChar context rnd).1 = some c ∧ c ∈ v) := by
  have hnot : ¬ p.size_ > context.length := by rw [hb.2]; omega
  have hval : ∀ v, find p.model_ (substrFrom context (context.length - size)) = some v →
      (p.predictNextChar context rnd).1 = v[uniform_int_distribution 0 (v.length - 1) rnd]? := by
    intro v hv
    unfold Predictor.predictNextChar
    rw [if_neg hnot]
    simp only [hb.2, hv]
  have hsome : ∀ v, find p.model_ (substrFrom context (context.length - size)) = some v →
      ∃ c, v[uniform_int_distribution 0 (v.length - 1) rnd]? = some c ∧ c ∈ v := by
    intro v hv
    rw [hb.1] at hv
    have hne : v ≠ [] := by
      have h := (find_construct_eq_some_iff text size _ v).mp hv
      rw [h.1]; exact h.2
    have hlt := uniform_int_distribution_lt v hne rnd
    exact ⟨_, List.getElem?_eq_getElem hlt, List.getElem_mem hlt⟩
  constructor
  · constructor
    · intro hnone
      rcases hx : find p.model_ (substrFrom context (context.length - size)) with _ | v
      · rfl
      · obtain ⟨c, hc, _⟩ := hsome v hx
        rw [hval v hx, hc] at hnone
        cases hnone
    · intro habs
      unfold Predictor.predictNextChar
      rw [if_neg hnot]
      simp only [hb.2, habs]
  · intro v hv
    refine ⟨hval v hv, ?_⟩
    obtain ⟨c, hc, hmem⟩ := hsome v hv
    exact ⟨c, by rw [hval v hv, hc], hmem⟩

/-- Witness for C6: the order-2 model of the example corpus, queried with `"xxab"`. -/
theorem lookup_trailing_key_witness :
    (Predictor.construct abcCorpus 2).builtFrom abcCorpus 2 ∧ 2 ≤ ['x', 'x', 'a', 'b'].length ∧
      (((Predictor.construct abcCorpus 2).predictNextChar ['x', 'x', 'a', 'b'] 1).1 = none ↔
        find (Predictor.construct abcCorpus 2).model_
          (substrFrom ['x', 'x', 'a', 'b'] (['x', 'x', 'a', 'b'].length - 2)) = none) :=
  ⟨⟨rfl, rfl⟩, by decide,
    (lookup_trailing_key abcCorpus 2 (Predictor.construct abcCorpus 2) ⟨rfl, rfl⟩
      ['x', 'x', 'a', 'b'] 1 (by decide)).1⟩

/-- C7 (table invariant): every key of the table built for order `size` has length `size`, and
every stored sequence is non-empty, so that the index drawn from `0 .. length - 1` lies within
the sequence. -/
theorem table_invariant (text : Str) (size : Nat) (entry : Str × List Char)
    (hmem : entry ∈ (Predictor.construct text size).model_) :
    entry.1.length = size ∧ entry.2 ≠ [] ∧
      ∀ rnd, uniform_int_distribution 0 (entry.2.length - 1) rnd < entry.2.length := by
  have h := buildModel_invariant text size 0 [] (fun e he => absurd he (List.not_mem_nil e))
    entry hmem
  exact ⟨h.1, h.2, uniform_int_distribution_lt entry.2 h.2⟩

/-- Witness for C7: the entry `"a" ↦ ['b']` of the order-1 table of `"ab"`. -/
theorem table_invariant_witness :
    ((['a'], ['b']) : Str × List Char) ∈ (Predictor.construct ['a', 'b'] 1).model_ ∧
      (['a'] : Str).length = 1 ∧ (['b'] : List Char) ≠ [] :=
  have hmem : ((['a'], ['b']) : Str × List Char) ∈ (Predictor.construct ['a', 'b'] 1).model_ := by
    rw [construct_ab_model]; exact List.mem_singleton.mpr rfl
  have h := table_invariant ['a', 'b'] 1 (['a'], ['b']) hmem
  ⟨hmem, h.1, h.2.1⟩

/-- C8: for a non-empty corpus the order-0 table has exactly one key, the empty string, and the
sequence stored under it is as long as the corpus. -/
theorem order_zero_table (text : Str) (hne : text ≠ []) :
    ∃ v, (Predictor.construct text 0).model_ = [([], v)] ∧ v.length = text.length := by
  cases text with
  | nil => exact absurd rfl hne
  | cons c rest =>
    refine ⟨c :: rest, ?_, rfl⟩
    unfold Predictor.construct
    simp only
    rw [buildModel, dif_pos (by simp)]
    have hstep : pushBack [] (substr (c :: rest) 0 0) (c :: rest)[0 + 0] = [([], [c])] := by
      simp [pushBack, substr]
    rw [buildModel_zero (c :: rest) (0 + 1) _ [c] hstep]
    simp

/-- Witness for C8: the corpus `"ab"`. -/
theorem order_zero_table_witness :
    (['a', 'b'] : Str) ≠ [] ∧
      ∃ v, (Predictor.construct ['a', 'b'] 0).model_ = [([], v)] ∧
        v.length = (['a', 'b'] : Str).length :=
  ⟨by decide, order_zero_table ['a', 'b'] (by decide)⟩

/-- C9 as stated fails: in the engine built from `"abcabcabc"` with `max_length = 2`, the order-2
table stores neither `['c']` under `"ab"`, nor `['a']` under `"bc"`, nor `['b']` under `"ca"`. -/
theorem example_table_not_singletons :
    ∃ e p, MarkovTextPredictor.construct abcCorpus 2 = some e ∧ e.predictors_[2]? = some p ∧
      find p.model_ ['a', 'b'] ≠ some ['c'] ∧ find p.model_ ['b', 'c'] ≠ some ['a'] ∧
      find p.model_ ['c', 'a'] ≠ some ['b'] := by
  refine ⟨abcEngine, Predictor.construct abcCorpus 2, abcEngine_construct, abcEngine_order_two,
    ?_, ?_, ?_⟩ <;>
  · rw [find_construct]
    decide

/-- C9, amended: in the engine built from `"abcabcabc"` with `max_length = 2`, the order-2 table
maps `"ab"` to `['c', 'c', 'c']`, `"bc"` to `['a', 'a']` and `"ca"` to `['b', 'b']`: one element
per occurrence of the key that has a following character. -/
theorem example_table_contents :
    ∃ e p, MarkovTextPredictor.construct abcCorpus 2 = some e ∧ e.predictors_[2]? = some p ∧
      p.size_ = 2 ∧
      find p.model_ ['a', 'b'] = some ['c', 'c', 'c'] ∧
      find p.model_ ['b', 'c'] = some ['a', 'a'] ∧
      find p.model_ ['c', 'a'] = some ['b', 'b'] := by
  refine ⟨abcEngine, Predictor.construct abcCorpus 2, abcEngine_construct, abcEngine_order_two,
    rfl, ?_, ?_, ?_⟩ <;>
  · rw [find_construct]
    decide

/-- C10: the engine built from `"abcabcabc"` with `max_length = 2` returns `'c'` for the context
`"xxab"`, whatever the random source yields. -/
theorem example_query_deterministic (e : MarkovTextPredictor) (hb : e.builtFrom abcCorpus 2)
    (rnd : Nat) : (e.predictNextChar ['x', 'x', 'a', 'b'] rnd).1 = 'c' := by
  obtain ⟨p2, hp2⟩ := builtFrom_exists e abcCorpus 2 hb 2 (by decide)
  have hb2 := (builtFrom_getElem? e abcCorpus 2 hb 2 p2 hp2).1
  have hconts : continuations abcCorpus 2
      (substrFrom ['x', 'x', 'a', 'b'] (['x', 'x', 'a', 'b'].length - 2)) = ['c', 'c', 'c'] := by
    decide
  have hans : (p2.predictNextChar ['x', 'x', 'a', 'b'] rnd).1 = some 'c' := by
    rw [predictNextChar_fst_of_builtFrom p2 abcCorpus 2 hb2]
    unfold answer
    rw [if_neg (by decide), hconts]
    simp only [extend, Option.getD_none, List.nil_append, Option.some_bind]
    exact getElem?_of_all_eq _ 'c' _ (uniform_int_distribution_lt _ (by simp) rnd) (by simp)
  rcases predictNextChar_spec e ['x', 'x', 'a', 'b'] rnd with
    ⟨hall, _⟩ | ⟨k, q, c, p, hkq, hq, hall, hres⟩
  · rw [hall 2 p2 hp2] at hans
    cases hans
  · have hq1 : (q.predictNextChar ['x', 'x', 'a', 'b'] rnd).1 = some c := by rw [hq]
    have hk2 := (builtFrom_getElem? e abcCorpus 2 hb k q hkq).2
    rw [hres]
    rcases Nat.lt_trichotomy k 2 with hlt | heq | hgt
    · rw [hall 2 p2 hlt hp2] at hans
      cases hans
    · rw [heq, hp2] at hkq
      cases hkq
      rw [hq1] at hans
      exact Option.some.inj hans
    · omega

/-- Witness for C10: the example engine as constructed, with generator outcome `5`. -/
theorem example_query_deterministic_witness :
    abcEngine.builtFrom abcCorpus 2 ∧
      (abcEngine.predictNextChar ['x', 'x', 'a', 'b'] 5).1 = 'c' :=
  ⟨abcEngine_builtFrom, example_query_deterministic abcEngine abcEngine_builtFrom 5⟩

/-- C11 as stated fails: with `max_length = -1` the constructor returns an engine; it has no
model at all and answers every query with the hardcoded character. -/
theorem negative_max_length_accepted :
    (-1 : Int) < 0 ∧
      MarkovTextPredictor.construct abcCorpus (-1) = some { predictors_ := [] } ∧
      (MarkovTextPredictor.predictNextChar { predictors_ := [] } ['a', 'b'] 0).1 = 'a' :=
  ⟨by decide, rfl, rfl⟩

/-- C11, amended: for every corpus, construction fails for every `max_length ≤ -2` (the request
`reserve(max_length + 1)` is refused), while `max_length = -1` yields an engine with no model. -/
theorem negative_max_length_construction (text : Str) (max_length : Int)
    (hneg : max_length ≤ -2) :
    MarkovTextPredictor.construct text max_length = none ∧
      MarkovTextPredictor.construct text (-1) = some { predictors_ := [] } := by
  constructor
  · unfold MarkovTextPredictor.construct
    rw [if_pos (Or.inl (by omega))]
  · rfl

/-- Witness for the amended C11: `max_length = -2` and the example corpus. -/
theorem negative_max_length_construction_witness :
    (-2 : Int) ≤ -2 ∧ MarkovTextPredictor.construct abcCorpus (-2) = none :=
  ⟨by decide, (negative_max_length_construction abcCorpus (-2) (by decide)).1⟩

/-- C12 (empty corpus): in an engine built from the empty corpus no model has a table entry, and
every query returns the hardcoded character `'a'` and the engine as it was, hit counters
included. -/
theorem empty_corpus_fallback (max_length : Int) (e : MarkovTextPredictor)
    (hb : e.builtFrom [] max_length) (context : Str) (rnd : Nat) :
    (∀ p ∈ e.predictors_, p.model_ = []) ∧ e.predictNextChar context rnd = ('a', e) := by
  have hempty : ∀ (k : Nat) (p : Predictor), e.predictors_[k]? = some p → p.model_ = [] := by
    intro k p hp
    have h := (builtFrom_getElem? e [] max_length hb k p hp).1.1
    rw [h]
    unfold Predictor.construct
    simp only
    rw [buildModel, dif_neg (by simp)]
  constructor
  · intro p hp
    obtain ⟨k, hk⟩ := List.mem_iff_getElem?.mp hp
    exact hempty k p hk
  · rcases predictNextChar_spec e context rnd with
      ⟨_, hres⟩ | ⟨k, q, c, p, hkq, hq, _, _⟩
    · exact hres
    · exfalso
      have hm := hempty k q hkq
      unfold Predictor.predictNextChar at hq
      rw [hm] at hq
      by_cases hs : q.size_ > context.length
      · rw [if_pos hs] at hq; cases hq
      · rw [if_neg hs] at hq
        simp [find] at hq

/-- Witness for C12: the engine built from the empty corpus with `max_length = 1`. -/
theorem empty_corpus_fallback_witness :
    MarkovTextPredictor.builtFrom
        { predictors_ := [Predictor.construct [] 0, Predictor.construct [] 1] } [] 1 ∧
      MarkovTextPredictor.predictNextChar
        { predictors_ := [Predictor.construct [] 0, Predictor.construct [] 1] } ['x'] 3 =
        ('a', { predictors_ := [Predictor.construct [] 0, Predictor.construct [] 1] }) :=
  ⟨⟨_, rfl, rfl⟩, (empty_corpus_fallback 1 _ ⟨_, rfl, rfl⟩ ['x'] 3).2⟩

/-- C13 as stated fails: `INT_MAX` is a non-negative `max_length`, and for it the constructor
returns no engine, since `max_length + 1` is not an `int`. -/
theorem construct_int_max_fails :
    (0 : Int) ≤ INT_MAX ∧ MarkovTextPredictor.construct abcCorpus INT_MAX = none := by
  refine ⟨by decide, ?_⟩
  unfold MarkovTextPredictor.construct
  rw [if_pos (Or.inr (by decide))]

/-- C13, amended: for `0 ≤ max_length < INT_MAX` the constructor returns an engine with exactly
`max_length + 1` models, the model at index `k` being the order-`k` model built from the same
corpus; the default argument is 15, which gives 16 models. -/
theorem construct_models (text : Str) (max_length : Int) (hm : 0 ≤ max_length)
    (hint : max_length < INT_MAX) :
    (∃ e, MarkovTextPredictor.construct text max_length = some e ∧
        (e.predictors_.length : Int) = max_length + 1 ∧
        ∀ k : Nat, (k : Int) ≤ max_length →
          e.predictors_[k]? = some (Predictor.construct text k) ∧
            (Predictor.construct text k).size_ = k) ∧
      defaultMaxLength = 15 ∧
      ∃ e, MarkovTextPredictor.constructDefault text = some e ∧ e.predictors_.length = 16 := by
  refine ⟨⟨MarkovTextPredictor.mk ((List.range (max_length + 1).toNat).map
    (fun size => Predictor.construct text size)), ?_, ?_, ?_⟩, rfl, ⟨_, rfl, rfl⟩⟩
  · unfold MarkovTextPredictor.construct
    rw [if_neg (by unfold INT_MAX at *; omega)]
  · simp only [List.length_map, List.length_range]
    omega
  · intro k hk
    refine ⟨?_, rfl⟩
    rw [List.getElem?_map, List.getElem?_range (by omega)]
    rfl

/-- Witness for the amended C13: the example corpus with `max_length = 2`. -/
theorem construct_models_witness :
    (0 : Int) ≤ 2 ∧ (2 : Int) < INT_MAX ∧
      ∃ e, MarkovTextPredictor.construct abcCorpus 2 = some e ∧
        (e.predictors_.length : Int) = 2 + 1 ∧
        ∀ k : Nat, (k : Int) ≤ 2 →
          e.predictors_[k]? = some (Predictor.construct abcCorpus k) ∧
            (Predictor.construct abcCorpus k).size_ = k :=
  ⟨by decide, by decide, (construct_models abcCorpus 2 (by decide) (by decide)).1⟩

/-- C14 (sampling weight): when the key of the context is stored with the sequence `v`, the draws
`0 .. length v - 1` for which the model returns `ch` are as many as the occurrences of `ch` in
`v`, so that `ch` is returned in `count ch v` out of `length v` equally likely draws. -/
theorem sampling_weight (text : Str) (size : Nat) (p : Predictor) (hb : p.builtFrom text size)
    (context : Str) (hlen : size ≤ context.length) (v : List Char)
    (hv : find p.model_ (substrFrom context (context.length - size)) = some v) (ch : Char) :
    (List.range v.length).countP
        (fun rnd => decide ((p.predictNextChar context rnd).1 = some ch)) = v.count ch := by
  rw [← countP_range_getElem? v ch]
  apply List.countP_congr
  intro rnd hrnd
  have hlt : rnd < v.length := List.mem_range.mp hrnd
  have hnot : ¬ p.size_ > context.length := by rw [hb.2]; omega
  have hval : (p.predictNextChar context rnd).1 = v[rnd]? := by
    unfold Predictor.predictNextChar
    rw [if_neg hnot]
    simp only [hb.2, hv, uniform_int_distribution_of_lt v rnd hlt]
  rw [hval]

/-- Witness for C14: the order-1 model of `"abac"` stores `['b', 'c']` under `"a"`; one draw of
the two returns `'b'`. -/
theorem sampling_weight_witness :
    (Predictor.construct ['a', 'b', 'a', 'c'] 1).builtFrom ['a', 'b', 'a', 'c'] 1 ∧
      find (Predictor.construct ['a', 'b', 'a', 'c'] 1).model_
        (substrFrom ['x', 'a'] (['x', 'a'].length - 1)) = some ['b', 'c'] ∧
      (List.range ['b', 'c'].length).countP
        (fun rnd => decide (((Predictor.construct ['a', 'b', 'a', 'c'] 1).predictNextChar
          ['x', 'a'] rnd).1 = some 'b')) = ['b', 'c'].count 'b' :=
  have hv : find (Predictor.construct ['a', 'b', 'a', 'c'] 1).model_
      (substrFrom ['x', 'a'] (['x', 'a'].length - 1)) = some ['b', 'c'] := by
    rw [find_construct]; decide
  ⟨⟨rfl, rfl⟩, hv,
    sampling_weight ['a', 'b', 'a', 'c'] 1 (Predictor.construct ['a', 'b', 'a', 'c'] 1)
      ⟨rfl, rfl⟩ ['x', 'a'] (by decide) ['b', 'c'] hv 'b'⟩

/-- C15 as stated fails: after `2147483647` answered queries the order-0 model of the corpus
`"a"` holds `INT_MAX` hits; the next query returns `'a'` and leaves the counter at `INT_MIN`,
which is neither one more than before nor at least what it was. -/
theorem hit_counter_overflow :
    ((Predictor.construct ['a'] 0).queries (List.replicate 2147483647 ([], 0))).2 =
        saturatedPredictor ∧
      saturatedPredictor.builtFrom ['a'] 0 ∧
      saturatedPredictor.getHits = 2147483647 ∧
      (saturatedPredictor.predictNextChar [] 0).1 = some 'a' ∧
      (saturatedPredictor.predictNextChar [] 0).2.getHits = -2147483648 ∧
      ¬ ((saturatedPredictor.predictNextChar [] 0).2.getHits = saturatedPredictor.getHits + 1) ∧
      ¬ (saturatedPredictor.getHits ≤ (saturatedPredictor.predictNextChar [] 0).2.getHits) := by
  have hget : (saturatedPredictor.predictNextChar [] 0).2.getHits = -2147483648 := by
    rw [saturatedPredictor_step]; rfl
  have hsat : saturatedPredictor.getHits = 2147483647 := rfl
  refine ⟨saturatedPredictor_reached, saturatedPredictor_builtFrom, hsat, ?_, hget, ?_, ?_⟩
  · rw [saturatedPredictor_step]
  · rw [hget, hsat]; omega
  · rw [hget, hsat]; omega

/-- C15, amended (state effect of a model query): a query of a built model changes neither the
table nor the order; the hit counter stays when "no prediction" is returned and goes up by
exactly one when a character is returned and the counter is an `int` below `INT_MAX`, in which
case it does not decrease; over any sequence of queries that does not take the counter past
`INT_MAX` it grows by the number of queries that returned a character, and on a newly
constructed model it then equals that number. -/
theorem query_state_effect (text : Str) (size : Nat) (p : Predictor)
    (hb : p.builtFrom text size) (context : Str) (rnd : Nat) (qs : List (Str × Nat)) :
    (p.predictNextChar context rnd).2.model_ = p.model_ ∧
      (p.predictNextChar context rnd).2.size_ = p.size_ ∧
      ((p.predictNextChar context rnd).1 ≠ none → INT_MIN ≤ p.getHits → p.getHits < INT_MAX →
        (p.predictNextChar context rnd).2.getHits = p.getHits + 1) ∧
      ((p.predictNextChar context rnd).1 = none →
        (p.predictNextChar context rnd).2.getHits = p.getHits) ∧
      (INT_MIN ≤ p.getHits → p.getHits < INT_MAX →
        p.getHits ≤ (p.predictNextChar context rnd).2.getHits) ∧
      (INT_MIN ≤ p.getHits →
        p.getHits + ((p.queries qs).1.filter Option.isSome).length ≤ INT_MAX →
        (p.queries qs).2.getHits =
          p.getHits + ((p.queries qs).1.filter Option.isSome).length) ∧
      (((((Predictor.construct text size).queries qs).1.filter Option.isSome).length : Int) ≤
          INT_MAX →
        ((Predictor.construct text size).queries qs).2.getHits =
          (((Predictor.construct text size).queries qs).1.filter Option.isSome).length) := by
  obtain ⟨hm, hs⟩ := predictNextChar_frame p context rnd
  have hstep : INT_MIN ≤ p.getHits → p.getHits < INT_MAX →
      wrapInt (p.hits_ + 1) = p.getHits + 1 := by
    intro hlo hhi
    have hlo' : INT_MIN ≤ p.hits_ := hlo
    have hhi' : p.hits_ < INT_MAX := hhi
    exact wrapInt_of_range _ (by unfold INT_MIN at *; omega) (by omega)
  refine ⟨hm, hs, ?_, ?_, ?_, ?_, ?_⟩
  · intro hne hlo hhi
    rcases predictNextChar_hits p text size hb context rnd with ⟨_, hst⟩ | hnone
    · rw [hst]; exact hstep hlo hhi
    · rw [hnone] at hne; exact absurd rfl hne
  · intro hnone
    rcases predictNextChar_hits p text size hb context rnd with ⟨⟨c, hc⟩, _⟩ | hn
    · rw [hc] at hnone; cases hnone
    · rw [hn]
  · intro hlo hhi
    rcases predictNextChar_hits p text size hb context rnd with ⟨_, hst⟩ | hnone
    · rw [hst]
      show p.getHits ≤ wrapInt (p.hits_ + 1)
      rw [hstep hlo hhi]
      omega
    · rw [hnone]
  · intro hlo hhi
    exact (queries_hits text size qs p hb hlo hhi).2
  · intro hhi
    have hzero : (Predictor.construct text size).getHits = 0 := rfl
    have h := (queries_hits text size qs (Predictor.construct text size) ⟨rfl, rfl⟩
      (by rw [hzero]; unfold INT_MIN; omega) (by rw [hzero]; omega)).2
    rw [hzero] at h
    omega

/-- Witness for the amended C15: the order-1 model of `"ab"` answers the context `"a"` and its
counter goes from 0 to 1. -/
theorem query_state_effect_witness :
    (Predictor.construct ['a', 'b'] 1).builtFrom ['a', 'b'] 1 ∧
      ((Predictor.construct ['a', 'b'] 1).predictNextChar ['a'] 0).1 ≠ none ∧
      INT_MIN ≤ (Predictor.construct ['a', 'b'] 1).getHits ∧
      (Predictor.construct ['a', 'b'] 1).getHits < INT_MAX ∧
      ((Predictor.construct ['a', 'b'] 1).predictNextChar ['a'] 0).2.getHits =
        (Predictor.construct ['a', 'b'] 1).getHits + 1 :=
  have hne : ((Predictor.construct ['a', 'b'] 1).predictNextChar ['a'] 0).1 ≠ none := by
    rw [predictNextChar_fst_construct]; decide
  have hlo : INT_MIN ≤ (Predictor.construct ['a', 'b'] 1).getHits := by decide
  have hhi : (Predictor.construct ['a', 'b'] 1).getHits < INT_MAX := by decide
  ⟨⟨rfl, rfl⟩, hne, hlo, hhi,
    (query_state_effect ['a', 'b'] 1 (Predictor.construct ['a', 'b'] 1) ⟨rfl, rfl⟩ ['a'] 0
      []).2.2.1 hne hlo hhi⟩

/-- C17 (suffix closure across orders), for `j ≤ k`: a key `s` of the order-`k` table has length
`k` and its last `j` characters are a key of the order-`j` table; when the order-`k` model
answers a context, so does the order-`j` model; and when the order-`j` model misses a context, so
does the order-`k` model (with `j = k₀ + 1`: a miss at order `k₀ + 1` is a miss at every order
above `k₀`). -/
theorem suffix_closure (text : Str) (k j : Nat) (hjk : j ≤ k) (s : Str) (context : Str)
    (rnd rnd₂ : Nat) :
    ((∃ v, find (Predictor.construct text k).model_ s = some v) →
        s.length = k ∧ (s.drop (k - j)).length = j ∧
          ∃ w, find (Predictor.construct text j).model_ (s.drop (k - j)) = some w) ∧
      (((Predictor.construct text k).predictNextChar context rnd).1 ≠ none →
        ((Predictor.construct text j).predictNextChar context rnd₂).1 ≠ none) ∧
      (((Predictor.construct text j).predictNextChar context rnd).1 = none →
        ((Predictor.construct text k).predictNextChar context rnd₂).1 = none) := by
  refine ⟨?_, ?_, ?_⟩
  · rintro ⟨v, hv⟩
    have hne := ((find_construct_eq_some_iff text k s v).mp hv).2
    obtain ⟨i, hlt, hs⟩ := (continuations_ne_nil_iff text k s).mp hne
    have hlen : s.length = k := by rw [← hs]; exact length_substr text k i hlt
    refine ⟨hlen, by rw [List.length_drop, hlen]; omega, ?_⟩
    have hne2 := continuations_suffix_ne_nil text k j hjk s hne
    exact ⟨_, (find_construct_eq_some_iff text j _ _).mpr ⟨rfl, hne2⟩⟩
  · rw [predictNextChar_fst_construct, predictNextChar_fst_construct]
    exact answer_downward text k j hjk context rnd rnd₂
  · rw [predictNextChar_fst_construct, predictNextChar_fst_construct]
    intro hj
    by_contra hk
    exact answer_downward text k j hjk context rnd₂ rnd hk hj

/-- Witness for C17: in the example corpus `"ab"` is a key at order 2 and `"b"` a key at
order 1. -/
theorem suffix_closure_witness :
    1 ≤ 2 ∧ (∃ v, find (Predictor.construct abcCorpus 2).model_ ['a', 'b'] = some v) ∧
      ∃ w, find (Predictor.construct abcCorpus 1).model_ (['a', 'b'].drop (2 - 1)) = some w :=
  have hkey : ∃ v, find (Predictor.construct abcCorpus 2).model_ ['a', 'b'] = some v :=
    ⟨['c', 'c', 'c'], by rw [find_construct]; decide⟩
  ⟨by decide, hkey,
    ((suffix_closure abcCorpus 2 1 (by decide) ['a', 'b'] [] 0 0).1 hkey).2.2⟩

/-- C18 (local consistency): in a built engine, whenever a model of order `k` answers `ch` for a
context, the last `k` characters of the context followed by `ch` are a substring of length
`k + 1` of the corpus; and whenever a model supplies the character the engine returns (the
engine does not come back untouched), that holds for the supplying model, which is the one of
the largest answering order. -/
theorem local_consistency (text : Str) (max_length : Int) (e : MarkovTextPredictor)
    (hb : e.builtFrom text max_length) (context : Str) (rnd : Nat) :
    (∀ p ∈ e.predictors_, ∀ ch, (p.predictNextChar context rnd).1 = some ch →
        ∃ i, i + (p.size_ + 1) ≤ text.length ∧
          substr text i (p.size_ + 1) =
            substrFrom context (context.length - p.size_) ++ [ch]) ∧
      ((e.predictNextChar context rnd).2 ≠ e →
        ∃ p ∈ e.predictors_,
          (p.predictNextChar context rnd).1 = some (e.predictNextChar context rnd).1 ∧
          (∀ q ∈ e.predictors_, p.size_ < q.size_ →
            (q.predictNextChar context rnd).1 = none) ∧
          ∃ i, i + (p.size_ + 1) ≤ text.length ∧
            substr text i (p.size_ + 1) =
              substrFrom context (context.length - p.size_) ++
                [(e.predictNextChar context rnd).1]) := by
  have hall : ∀ p ∈ e.predictors_, ∀ ch, (p.predictNextChar context rnd).1 = some ch →
      ∃ i, i + (p.size_ + 1) ≤ text.length ∧
        substr text i (p.size_ + 1) =
          substrFrom context (context.length - p.size_) ++ [ch] := by
    intro p hp ch hans
    have hpi := builtFrom_mem e text max_length hb p hp
    have hbp := (builtFrom_getElem? e text max_length hb p.size_ p hpi).1
    rw [predictNextChar_fst_of_builtFrom p text p.size_ hbp] at hans
    exact answer_substring text p.size_ context rnd ch hans
  refine ⟨hall, ?_⟩
  intro hchg
  rcases predictNextChar_spec e context rnd with
    ⟨_, hres⟩ | ⟨k, q, c, p2, hkq, hq, hlarger, hres⟩
  · rw [hres] at hchg
    exact absurd rfl hchg
  · have hq1 : (q.predictNextChar context rnd).1 = some c := by rw [hq]
    have hqmem : q ∈ e.predictors_ := List.mem_iff_getElem?.mpr ⟨k, hkq⟩
    have hqsize := (builtFrom_getElem? e text max_length hb k q hkq).1.2
    rw [hres]
    refine ⟨q, hqmem, hq1, ?_, hall q hqmem c hq1⟩
    intro r hr hlt
    exact hlarger r.size_ r (by rw [← hqsize]; exact hlt)
      (builtFrom_mem e text max_length hb r hr)

/-- Witness for C18: the example engine queried with `"xxab"`; the order-2 model answers `'c'`
and `"abc"` is a substring of the corpus. -/
theorem local_consistency_witness :
    abcEngine.builtFrom abcCorpus 2 ∧
      ∀ p ∈ abcEngine.predictors_, ∀ ch,
        (p.predictNextChar ['x', 'x', 'a', 'b'] 1).1 = some ch →
        ∃ i, i + (p.size_ + 1) ≤ abcCorpus.length ∧
          substr abcCorpus i (p.size_ + 1) =
            substrFrom ['x', 'x', 'a', 'b'] (['x', 'x', 'a', 'b'].length - p.size_) ++ [ch] :=
  ⟨abcEngine_builtFrom,
    (local_consistency abcCorpus 2 abcEngine abcEngine_builtFrom ['x', 'x', 'a', 'b'] 1).1⟩

/-- C19 (size of a built table): the table built for a corpus of length `n` and order `k` records
`n - k` continuations in all when `k < n` and none otherwise, and it is empty exactly when
`n ≤ k`. -/
theorem table_size (text : Str) (size : Nat) :
    totalContinuations (Predictor.construct text size).model_ =
        (if size < text.length then text.length - size else 0) ∧
      ((Predictor.construct text size).model_ = [] ↔ text.length ≤ size) := by
  have htotal : totalContinuations (Predictor.construct text size).model_ =
      text.length - size := by
    unfold Predictor.construct
    simp only
    rw [totalContinuations_buildModel]
    simp [totalContinuations]
  constructor
  · rw [htotal]
    by_cases h : size < text.length
    · rw [if_pos h]
    · rw [if_neg h]; omega
  · constructor
    · intro hnil
      rw [hnil] at htotal
      simp only [totalContinuations, List.map_nil, List.sum_nil] at htotal
      omega
    · intro hle
      unfold Predictor.construct
      simp only
      rw [buildModel, dif_neg (by omega)]

/-- C20 as stated fails: the engine built from the corpus `"a"` with `max_length = 0` holds
`INT_MAX` hits after `2147483647` queries; the next query leaves the counter of its only model
at `INT_MIN` instead of one more, and after `2147483648` queries the hit total is
`-2147483648`. -/
theorem hit_total_overflow :
    MarkovTextPredictor.construct ['a'] 0 = some singleEngine ∧
      (singleEngine.queries (List.replicate 2147483647 ([], 0))).2 = saturatedEngine ∧
      saturatedEngine.totalHits = 2147483647 ∧
      (saturatedEngine.predictNextChar [] 0).2.predictors_ =
        [{ saturatedPredictor with hits_ := -2147483648 }] ∧
      (saturatedEngine.predictNextChar [] 0).2.totalHits = -2147483648 ∧
      (singleEngine.queries (List.replicate 2147483648 ([], 0))).2.totalHits = -2147483648 ∧
      (-2147483648 : Int) ≠ 2147483648 := by
  refine ⟨singleEngine_construct,
    saturatedEngine_reached_of 2147483647 (by unfold INT_MAX; norm_num), by decide, ?_, ?_,
    singleEngine_overflow_of 2147483648 (by unfold INT_MAX; norm_num), by decide⟩
  · rw [saturatedEngine_step]; rfl
  · rw [saturatedEngine_step]; rfl

/-- C20, amended (engine-level hit accounting): in an engine built from a non-empty corpus with
`0 ≤ max_length`, a query replaces the model of the largest answering order by a model with the
same table and order, whose counter is one more when the old counter is an `int` below
`INT_MAX`, and leaves every other model as it was; while the counters are non-negative and their
sum stays within `INT_MAX` the sum goes up by one per query, so after `N ≤ INT_MAX` queries on a
newly constructed engine it is `N`. -/
theorem engine_hit_accounting (text : Str) (max_length : Int) (e : MarkovTextPredictor)
    (hb : e.builtFrom text max_length) (hne : text ≠ []) (hm : 0 ≤ max_length)
    (context : Str) (rnd : Nat) (qs : List (Str × Nat)) :
    (∃ (k : Nat) (q q₂ : Predictor), e.predictors_[k]? = some q ∧
        (q.predictNextChar context rnd).1 = some (e.predictNextChar context rnd).1 ∧
        (∀ (j : Nat) (r : Predictor), k < j → e.predictors_[j]? = some r →
          (r.predictNextChar context rnd).1 = none) ∧
        (e.predictNextChar context rnd).2.predictors_ = e.predictors_.set k q₂ ∧
        q₂.model_ = q.model_ ∧ q₂.size_ = q.size_ ∧
        (INT_MIN ≤ q.getHits → q.getHits < INT_MAX → q₂.getHits = q.getHits + 1)) ∧
      ((∀ p ∈ e.predictors_, 0 ≤ p.getHits) → e.totalHits < INT_MAX →
        (e.predictNextChar context rnd).2.totalHits = e.totalHits + 1) ∧
      ((∀ p ∈ e.predictors_, 0 ≤ p.getHits) → e.totalHits + qs.length ≤ INT_MAX →
        (e.queries qs).2.totalHits = e.totalHits + qs.length) ∧
      (∀ e₀, MarkovTextPredictor.construct text max_length = some e₀ →
        (qs.length : Int) ≤ INT_MAX → (e₀.queries qs).2.totalHits = qs.length) := by
  refine ⟨?_, ?_, ?_, ?_⟩
  · obtain ⟨k, q, hkq, hans, hlarger, hset⟩ :=
      predictNextChar_step text max_length e hb hne hm context rnd
    refine ⟨k, q, { q with hits_ := wrapInt (q.hits_ + 1) }, hkq, hans, hlarger, hset, rfl,
      rfl, ?_⟩
    intro hlo hhi
    have hlo' : INT_MIN ≤ q.hits_ := hlo
    have hhi' : q.hits_ < INT_MAX := hhi
    exact wrapInt_of_range _ (by unfold INT_MIN at *; omega) (by omega)
  · intro hnn hlt
    exact (totalHits_predictNextChar text max_length e hb hne hm context rnd hnn hlt).1
  · intro hnn hle
    exact (totalHits_queries text max_length hne hm qs e hb hnn hle).1
  · intro e₀ h₀ hle
    obtain ⟨hz, hnn⟩ := totalHits_construct text max_length e₀ h₀
    have h := (totalHits_queries text max_length hne hm qs e₀
      (builtFrom_construct text max_length e₀ h₀) hnn (by rw [hz]; omega)).1
    rw [hz] at h
    omega

/-- Witness for the amended C20: three queries on the example engine, fed as `main` feeds them,
leave a hit total of three. -/
theorem engine_hit_accounting_witness :
    abcEngine.builtFrom abcCorpus 2 ∧ abcCorpus ≠ [] ∧ (0 : Int) ≤ 2 ∧
      (abcEngine.queries [(['a'], 0), (['a', 'b'], 1), (['a', 'b', 'c'], 2)]).2.totalHits =
        ([(['a'], 0), (['a', 'b'], 1), (['a', 'b', 'c'], 2)] : List (Str × Nat)).length :=
  ⟨abcEngine_builtFrom, by decide, by decide,
    (engine_hit_accounting abcCorpus 2 abcEngine abcEngine_builtFrom (by decide) (by decide)
      [] 0 [(['a'], 0), (['a', 'b'], 1), (['a', 'b', 'c'], 2)]).2.2.2 abcEngine
      abcEngine_construct (by decide)⟩

end Markov
